import Mathlib

/-!
Envelope encryption of `libs/crypto/ECDH/ecdh.go`

A shallow embedding of the package `ECDH`: the functions `encrypt`, `decrypt`,
`addPadding`, `removePadding`, `EncryptGCM`, `DecryptGCM` and `makeRandom` are
translated statement by statement.  Byte slices are lists of bytes, a Go
function result `(out []byte, err error)` is a pair of nil-able values, and a
run-time panic (index or slice bounds out of range) is an explicit outcome.

The curve, hash, HMAC and AES-GCM operations of the Go standard library are
the fields of `Primitives`; nothing is assumed of them beyond the digest
lengths fixed by their Go types.

The function `GenerateInt` and the integer-to-bytes functions of
`utils/number/Number.go` are embedded in the namespace `Number`, with 64-bit
integer arithmetic made explicit.
-/

namespace ECDH

/-! ## Data model -/

/-- A Go `byte`. -/
abbrev Byte := Fin 256

/-- A Go `[]byte`, seen through its elements. -/
abbrev Bytes := List Byte

/-- A Go `error` value, identified by its message. -/
abbrev Error := String

/-- Result of running a Go function with results `(val, err error)`:
either it returns the pair, or it panics. -/
inductive Outcome (α : Type) where
  | returned (val : α) (err : Option Error)
  | panicked
  deriving DecidableEq

/-- The conversion `byte(n)` of a non-negative `int`. -/
def toByte (n : Nat) : Byte := ⟨n % 256, Nat.mod_lt n (by decide)⟩

/-- The index expression `s[i]`; `none` is the index-out-of-range panic. -/
def index (s : Bytes) (i : Int) : Option Byte :=
  if 0 ≤ i ∧ i < (s.length : Int) then s.get? i.toNat else none

/-- The slice expression `s[lo:hi]`; `none` is the slice-bounds panic.
The upper bound is checked against `len(s)`: wherever the source slices with
an explicit upper bound (which Go checks against `cap(s)`), the statement next
to it slices the same value up to `len(s)` from the same position, so the
function panics under exactly this condition. -/
def slice (s : Bytes) (lo hi : Int) : Option Bytes :=
  if 0 ≤ lo ∧ lo ≤ hi ∧ hi ≤ (s.length : Int) then
    some ((s.take hi.toNat).drop lo.toNat)
  else none

/-- The built-in `copy(dst[off:], src)`: overwrites `dst` from position `off`
with as many bytes of `src` as fit. -/
def copyAt (dst : Bytes) (off : Nat) (src : Bytes) : Bytes :=
  dst.take off ++ src.take (dst.length - off) ++ dst.drop (off + src.length)

/-- The named curves of `crypto/elliptic`. -/
inductive CurveId where
  | P224 | P256 | P384 | P521
  deriving DecidableEq

/-- An `ecdsa.PublicKey`. -/
structure PublicKey where
  Curve : CurveId
  X : Int
  Y : Int
  deriving DecidableEq

/-- An `ecdsa.PrivateKey` (the public key is an embedded field). -/
structure PrivateKey where
  PublicKey : PublicKey
  D : Int
  deriving DecidableEq

/-- The error value `ErrEncrypt`. -/
def ErrEncrypt : Error := "secret: encryption failed"

/-- The error value `ErrDecrypt`. -/
def ErrDecrypt : Error := "secret: decryption failed"

/-- The package variable `Curve`, read as the curve that `Curve()` returns. -/
def Curve : CurveId := CurveId.P256

/-- The constant `KeySize_AES256`. -/
def KeySize_AES256 : Int := 32

/-- The constant `KeySize_AES128`. -/
def KeySize_AES128 : Int := 16

/-- The constant `aes.BlockSize`. -/
def aesBlockSize : Nat := 16

/-- The constant `sha1.Size`. -/
def sha1Size : Nat := 20

/-- The value of `gcm.NonceSize()` for the standard GCM mode. -/
def gcmNonceSize : Nat := 12

/-! ## Library primitives -/

/-- The operations of the Go standard library that the package calls.
`generateKey` is `ecdsa.GenerateKey` reading from the random stream (it
returns the key or an error, and the rest of the stream); `scalarMult` is
`Curve.ScalarMult` (`none`: the call panics, as `crypto/elliptic` does on a
point that is not on the receiver curve; otherwise each coordinate is a
`*big.Int` and may be nil); `marshal` is `elliptic.Marshal` (`none`: the call
panics, again on a point that is not on the curve); `unmarshal` is
`elliptic.Unmarshal` (nil coordinates on error); `sum384`, `sum256` are
`sha512.Sum384`, `sha256.Sum256`;
`hmacSHA1 key msg` is `hmac.New(sha1.New, key)` fed `msg` and summed;
`gcmSeal key nonce plaintext aad` and `gcmOpen key nonce sealed aad` are the
AES-GCM `Seal` and `Open` (`none`: authentication failed).  The three length
fields are the Go result types `[48]byte`, `[32]byte` and `sha1.Size`. -/
structure Primitives where
  generateKey : CurveId → Bytes → Except Error PrivateKey × Bytes
  scalarMult : CurveId → Int → Int → Bytes → Option (Option Int × Option Int)
  marshal : CurveId → Int → Int → Option Bytes
  unmarshal : CurveId → Bytes → Option (Int × Int)
  sum384 : Bytes → Bytes
  sum256 : Bytes → Bytes
  hmacSHA1 : Bytes → Bytes → Bytes
  gcmSeal : Bytes → Bytes → Bytes → Bytes → Bytes
  gcmOpen : Bytes → Bytes → Bytes → Bytes → Option Bytes
  sum384_length : ∀ b, (sum384 b).length = 48
  sum256_length : ∀ b, (sum256 b).length = 32
  hmacSHA1_length : ∀ k m, (hmacSHA1 k m).length = 20

/-- Worker of `bigIntBytes`: peels base-256 digits, least significant first,
onto the front of the accumulator. -/
def bigIntBytesAux : Nat → Nat → Bytes → Bytes
  | 0, _, acc => acc
  | fuel + 1, n, acc =>
    if n = 0 then acc else bigIntBytesAux fuel (n / 256) (toByte n :: acc)

/-- The method `(*big.Int).Bytes`: the big-endian bytes of the absolute value,
without leading zeros (empty for zero).  A number has at most as many digits
as its value, so the fuel never runs out. -/
def bigIntBytes (x : Int) : Bytes := bigIntBytesAux x.natAbs x.natAbs []

/-- The number a big-endian byte string denotes. -/
def bytesValue : Bytes → Nat
  | [] => 0
  | c :: r => c.val * 256 ^ r.length + bytesValue r

/-- The constructor `aes.NewCipher`: accepts keys of 16, 24 or 32 bytes only. -/
def aesNewCipher (key : Bytes) : Option Bytes :=
  if key.length = 16 ∨ key.length = 24 ∨ key.length = 32 then some key else none

/-! ## The package's functions -/

/-- Function `makeRandom`: a buffer of `length` bytes filled by `io.ReadFull` from the
random stream `rnd`.  Returns `(bytes, err)` and the rest of the stream; when
the stream is too short the buffer is partly filled and `err` is non-nil. -/
def makeRandom (length : Nat) (rnd : Bytes) : (Bytes × Option Error) × Bytes :=
  if length ≤ rnd.length then
    ((rnd.take length, none), rnd.drop length)
  else
    ((rnd ++ List.replicate (length - rnd.length) 0,
      some (if rnd.length = 0 then "EOF" else "unexpected EOF")), [])

/-- Function `addPadding` (lines 176-181). -/
def addPadding (b : Bytes) : Bytes :=
  let l := 16 - b.length % 16
  let padding := (List.replicate l (0 : Byte)).set (l - 1) (toByte l)
  b ++ padding

/-- Function `removePadding` (lines 166-173). -/
def removePadding (b : Bytes) : Outcome (Option Bytes) :=
  match index b ((b.length : Int) - 1) with
  | none => Outcome.panicked
  | some c =>
    let l : Int := (c.val : Int)
    if l > 16 then
      Outcome.returned none (some "Padding incorrect")
    else
      match slice b 0 ((b.length : Int) - l) with
      | none => Outcome.panicked
      | some r => Outcome.returned (some r) none

/-- Function `EncryptGCM` (lines 214-231); `rnd` is the random stream its nonce is drawn from.
`cipher.NewGCM` cannot fail on an AES block cipher. -/
def EncryptGCM (P : Primitives) (data iv key rnd : Bytes) : Outcome (Option Bytes) :=
  match aesNewCipher key with
  | none => Outcome.returned none (some ErrEncrypt)
  | some c =>
    match makeRandom gcmNonceSize rnd with
    | ((_, some err), _) => Outcome.returned none (some err)
    | ((nonce, none), _) =>
      Outcome.returned (some (nonce ++ P.gcmSeal c nonce data iv)) none

/-- Function `DecryptGCM` (lines 234-248).  `gcm.Open(nil, ...)` appends the
plaintext to a nil slice, so an empty plaintext comes back as the nil slice. -/
def DecryptGCM (P : Primitives) (data iv key : Bytes) : Outcome (Option Bytes) :=
  match aesNewCipher key with
  | none => Outcome.returned none (some ErrEncrypt)
  | some c =>
    match slice data 0 gcmNonceSize, slice data gcmNonceSize data.length with
    | some nonce, some sealed =>
      match P.gcmOpen c nonce sealed iv with
      | some plain => Outcome.returned (if plain = [] then none else some plain) none
      | none => Outcome.returned none (some "cipher: message authentication failed")
    | _, _ => Outcome.panicked

/-- Function `encrypt` (lines 65-111); `rnd` is the state of `rand.Reader`.  The named results start
as `out = nil`, `err = nil`, and every bare `return` on an error path happens
before `out` is assigned. -/
def encrypt (P : Primitives) (pub : PublicKey) (inp : Bytes) (KeySize : Int)
    (rnd : Bytes) : Outcome (Option Bytes) :=
  match P.generateKey Curve rnd with
  | (Except.error err, _) => Outcome.returned none (some err)
  | (Except.ok ephemeral, rnd1) =>
    match P.scalarMult pub.Curve pub.X pub.Y (bigIntBytes ephemeral.D) with
    | none => Outcome.panicked
    | some (none, _) => Outcome.returned none (some "Failed to generate encryption key")
    | some (some x, _) =>
      let shared : Bytes :=
        if KeySize = 32 then P.sum384 (bigIntBytes x) else P.sum256 (bigIntBytes x)
      match makeRandom aesBlockSize rnd1 with
      | ((_, some err), _) => Outcome.returned none (some err)
      | ((iv, none), rnd2) =>
        let paddedIn := addPadding inp
        match slice shared 0 KeySize with
        | none => Outcome.panicked
        | some encKey =>
          match EncryptGCM P paddedIn iv encKey rnd2 with
          | Outcome.panicked => Outcome.panicked
          | Outcome.returned _ (some err) => Outcome.returned none (some err)
          | Outcome.returned ct none =>
            let ct := ct.getD []
            match P.marshal pub.Curve ephemeral.PublicKey.X ephemeral.PublicKey.Y with
            | none => Outcome.panicked
            | some ephPub =>
              let out0 : Bytes := List.replicate (1 + ephPub.length + aesBlockSize) 0
              let out1 := out0.set 0 (toByte ephPub.length)
              let out2 := copyAt out1 1 ephPub
              let out3 := copyAt out2 (1 + ephPub.length) iv
              let out4 := out3 ++ ct
              match slice shared KeySize shared.length with
              | none => Outcome.panicked
              | some macKey =>
                Outcome.returned (some (out4 ++ P.hmacSHA1 macKey (iv ++ ct))) none

/-- Function `decrypt` (lines 116-162). -/
def decrypt (P : Primitives) (priv : PrivateKey) (inp : Bytes) (KeySize : Int) :
    Outcome (Option Bytes) :=
  match index inp 0 with
  | none => Outcome.panicked
  | some b0 =>
    let ephLen : Int := (b0.val : Int)
    match slice inp 1 (1 + ephLen), slice inp (1 + ephLen) inp.length with
    | some ephPub, some ct =>
      if (ct.length : Int) < (sha1Size : Int) + (aesBlockSize : Int) then
        Outcome.returned none (some "Invalid ciphertext")
      else
        match P.unmarshal Curve ephPub with
        | none => Outcome.returned none (some "Invalid public key")
        | some (ex, ey) =>
          match P.scalarMult priv.PublicKey.Curve ex ey (bigIntBytes priv.D) with
          | none => Outcome.panicked
          | some (none, _) => Outcome.returned none (some "Failed to generate encryption key")
          | some (some x, _) =>
            let shared : Bytes :=
              if KeySize = 32 then P.sum384 (bigIntBytes x) else P.sum256 (bigIntBytes x)
            let tagStart : Int := (ct.length : Int) - (sha1Size : Int)
            match slice shared KeySize shared.length, slice ct 0 tagStart,
                slice ct tagStart ct.length with
            | some macKey, some macInput, some tag =>
              let mac := P.hmacSHA1 macKey macInput
              if mac ≠ tag then
                Outcome.returned none (some "Invalid MAC")
              else
                match slice ct aesBlockSize tagStart, slice ct 0 aesBlockSize,
                    slice shared 0 KeySize with
                | some data, some iv, some encKey =>
                  match DecryptGCM P data iv encKey with
                  | Outcome.panicked => Outcome.panicked
                  | Outcome.returned _ (some err) => Outcome.returned none (some err)
                  | Outcome.returned paddedOut none => removePadding (paddedOut.getD [])
                | _, _, _ => Outcome.panicked
            | _, _, _ => Outcome.panicked
    | _, _ => Outcome.panicked

/-- Entry point `Encrypt_ECDHE_ECDSA_AES256_GCM_HMAC_SHA1`. -/
def Encrypt_ECDHE_ECDSA_AES256_GCM_HMAC_SHA1 (P : Primitives) (pub : PublicKey)
    (inp rnd : Bytes) : Outcome (Option Bytes) :=
  encrypt P pub inp KeySize_AES256 rnd

/-- Entry point `Decrypt_ECDHE_ECDSA_AES256_GCM_HMAC_SHA1`. -/
def Decrypt_ECDHE_ECDSA_AES256_GCM_HMAC_SHA1 (P : Primitives) (priv : PrivateKey)
    (inp : Bytes) : Outcome (Option Bytes) :=
  decrypt P priv inp KeySize_AES256

/-- Entry point `Encrypt_ECDHE_ECDSA_AES128_GCM_HMAC_SHA1`. -/
def Encrypt_ECDHE_ECDSA_AES128_GCM_HMAC_SHA1 (P : Primitives) (pub : PublicKey)
    (inp rnd : Bytes) : Outcome (Option Bytes) :=
  encrypt P pub inp KeySize_AES128 rnd

/-- Entry point `Decrypt_ECDHE_ECDSA_AES128_GCM_HMAC_SHA1`. -/
def Decrypt_ECDHE_ECDSA_AES128_GCM_HMAC_SHA1 (P : Primitives) (priv : PrivateKey)
    (inp : Bytes) : Outcome (Option Bytes) :=
  decrypt P priv inp KeySize_AES128

/-! ## A small executable instance of the primitives

Used to run the functions on concrete inputs.  A point is on the curve `c`
when its second coordinate is the number `toyTag c`, or when it is the
encoding `(0, 0)` of the point at infinity; the scalar multiplication and the
marshalling panic on any other point, as the library does.  Points are encoded
on three bytes, the digests and the MAC are checksums of their inputs, and the
"AEAD" appends a one-byte tag binding key, nonce and associated data. -/

/-- The second coordinate shared by the points of a curve of the executable
instance. -/
def toyTag : CurveId → Int
  | CurveId.P224 => 3
  | CurveId.P256 => 1
  | CurveId.P384 => 2
  | CurveId.P521 => 4

/-- Membership of a point in a curve of the executable instance (the library's
`panicIfNotOnCurve` lets `(0, 0)` through). -/
def toyOnCurve (c : CurveId) (x y : Int) : Bool :=
  decide (y = toyTag c) || (decide (x = 0) && decide (y = 0))

/-- Sum of the bytes, as a byte. -/
def checksum (b : Bytes) : Byte := toByte (b.foldl (fun s x => s + x.val) 0)

/-- A fixed-width digest: byte `i` is the checksum plus `i`. -/
def toyDigest (n : Nat) (b : Bytes) : Bytes :=
  (List.range n).map (fun i => toByte ((checksum b).val + i))

/-- An executable instance of `Primitives`. -/
def toy : Primitives where
  generateKey := fun c rnd =>
    match rnd with
    | [] => (Except.error "EOF", [])
    | d :: rest => (Except.ok ⟨⟨c, (d.val : Int), toyTag c⟩, (d.val : Int)⟩, rest)
  scalarMult := fun c x y k =>
    if toyOnCurve c x y then
      some (some (x * (checksum k).val % 251),
        some (if x * (checksum k).val % 251 = 0 then 0 else toyTag c))
    else none
  marshal := fun c x y =>
    if toyOnCurve c x y then some [4, toByte x.natAbs, toByte y.natAbs] else none
  unmarshal := fun c b =>
    match b with
    | [t, x, y] =>
      if t = 4 ∧ (y.val : Int) = toyTag c then some ((x.val : Int), (y.val : Int)) else none
    | _ => none
  sum384 := toyDigest 48
  sum256 := toyDigest 32
  hmacSHA1 := fun k m => toyDigest 20 (k ++ m)
  gcmSeal := fun k n p a => p ++ [checksum (k ++ n ++ p ++ a)]
  gcmOpen := fun k n s a =>
    match s.getLast? with
    | none => none
    | some t => if t = checksum (k ++ n ++ s.dropLast ++ a) then some s.dropLast else none
  sum384_length := by intro b; simp [toyDigest]
  sum256_length := by intro b; simp [toyDigest]
  hmacSHA1_length := by intro k m; simp [toyDigest]

/-! ## Definitions used to state the properties -/

/-- The digest that `encrypt` (lines 76-85) and `decrypt` (lines 135-144)
select from the key size, named so that statements can refer to it. -/
def digestFor (P : Primitives) (KeySize : Int) (x : Int) : Bytes :=
  if KeySize = 32 then P.sum384 (bigIntBytes x) else P.sum256 (bigIntBytes x)

/-- The wire format of the specification:
`[1-byte key length][ephemeral public key][outer IV][AEAD ciphertext][MAC tag]`. -/
def frame (ephPub iv aeadCt tag : Bytes) : Bytes :=
  toByte ephPub.length :: (ephPub ++ iv ++ aeadCt ++ tag)

/-- The envelope the specification describes for given random values: the
frame of the marshalled ephemeral point `ephPub`, the outer IV, the AEAD ciphertext
`nonce ++ Seal(encKey, nonce, addPadding(in), aad = iv)` and the tag
`HMAC-SHA1(macKey, iv ++ aeadCt)`, with `encKey` the first `KeySize` bytes of
the digest of the agreed `x` and `macKey` the rest. -/
def envelopeOf (P : Primitives) (inp : Bytes) (KeySize : Int)
    (ephPub : Bytes) (x : Int) (iv nonce : Bytes) : Bytes :=
  frame ephPub iv
    (nonce ++ P.gcmSeal ((digestFor P KeySize x).take KeySize.toNat) nonce (addPadding inp) iv)
    (P.hmacSHA1 ((digestFor P KeySize x).drop KeySize.toNat)
      (iv ++ (nonce ++
        P.gcmSeal ((digestFor P KeySize x).take KeySize.toNat) nonce (addPadding inp) iv)))

/-- The primitives `P` with the AEAD open function replaced by `f`. -/
def withOpen (P : Primitives) (f : Bytes → Bytes → Bytes → Bytes → Option Bytes) :
    Primitives :=
  { P with gcmOpen := f }

/-- One byte with bit `k` inverted (`c ^ (1 << k)`). -/
def flipByte (c : Byte) (k : Nat) : Byte := toByte (c.val ^^^ 2 ^ k)

/-- The byte string `b` with bit `k` of the byte at position `i` inverted. -/
def flipBit (b : Bytes) (i k : Nat) : Bytes := b.set i (flipByte (b.getD i 0) k)

/-- The statement that an encrypting and a decrypting entry point work with the
encryption key `encKey` and the MAC key `macKey` whenever the agreed
coordinate is `x` (and the library calls return): the envelope `enc` returns is sealed under `encKey` and
tagged under `macKey`, and `dec` checks the tag of a framed envelope under
`macKey` and only then opens it under `encKey`. -/
def UsesKeys (P : Primitives)
    (enc : PublicKey → Bytes → Bytes → Outcome (Option Bytes))
    (dec : PrivateKey → Bytes → Outcome (Option Bytes))
    (x : Int) (encKey macKey : Bytes) : Prop :=
  (∀ (pub : PublicKey) (inp rnd rnd1 ephPub : Bytes) (ephemeral : PrivateKey) (y : Option Int),
    P.generateKey Curve rnd = (Except.ok ephemeral, rnd1) →
    P.scalarMult pub.Curve pub.X pub.Y (bigIntBytes ephemeral.D) = some (some x, y) →
    P.marshal pub.Curve ephemeral.PublicKey.X ephemeral.PublicKey.Y = some ephPub →
    28 ≤ rnd1.length →
    enc pub inp rnd = Outcome.returned (some
      (frame ephPub (rnd1.take 16)
        ((rnd1.drop 16).take 12 ++
          P.gcmSeal encKey ((rnd1.drop 16).take 12) (addPadding inp) (rnd1.take 16))
        (P.hmacSHA1 macKey (rnd1.take 16 ++ ((rnd1.drop 16).take 12 ++
          P.gcmSeal encKey ((rnd1.drop 16).take 12) (addPadding inp) (rnd1.take 16)))))) none) ∧
  (∀ (priv : PrivateKey) (ephPub iv aeadCt tag : Bytes) (ex ey : Int) (y : Option Int),
    ephPub.length ≤ 255 → iv.length = 16 → tag.length = 20 →
    P.unmarshal Curve ephPub = some (ex, ey) →
    P.scalarMult priv.PublicKey.Curve ex ey (bigIntBytes priv.D) = some (some x, y) →
    dec priv (frame ephPub iv aeadCt tag) =
      if P.hmacSHA1 macKey (iv ++ aeadCt) ≠ tag then
        Outcome.returned none (some "Invalid MAC")
      else
        match DecryptGCM P aeadCt iv encKey with
        | Outcome.panicked => Outcome.panicked
        | Outcome.returned _ (some err) => Outcome.returned none (some err)
        | Outcome.returned paddedOut none => removePadding (paddedOut.getD []))

/-! ## Sample inputs -/

/-- A public key of the executable instance: the point `3 * G` with `G = (1, 1)`. -/
def samplePub : PublicKey := ⟨Curve, 3, 1⟩

/-- The private key of `samplePub`. -/
def samplePriv : PrivateKey := ⟨samplePub, 3⟩

/-- A state of the random source: one byte for the ephemeral scalar, sixteen
for the outer IV, twelve for the GCM nonce. -/
def sampleRnd : Bytes :=
  [2, 10, 11, 12, 13, 14, 15, 16, 17, 18, 19, 20, 21, 22, 23, 24, 25,
   30, 31, 32, 33, 34, 35, 36, 37, 38, 39, 40, 41]

/-- The envelope of the plaintext `[1, 2, 3]` for `samplePub`, key size 32 and
the random source `sampleRnd`. -/
def sampleEnvelope : Bytes :=
  [3, 4, 2, 1,
   10, 11, 12, 13, 14, 15, 16, 17, 18, 19, 20, 21, 22, 23, 24, 25,
   30, 31, 32, 33, 34, 35, 36, 37, 38, 39, 40, 41,
   1, 2, 3, 0, 0, 0, 0, 0, 0, 0, 0, 0, 0, 0, 0, 13, 133,
   50, 51, 52, 53, 54, 55, 56, 57, 58, 59, 60, 61, 62, 63, 64, 65, 66, 67, 68, 69]

/-- An envelope whose tag does not verify: `sampleEnvelope` with its last byte
changed from 69 to 70. -/
def sampleBadTag : Bytes := sampleEnvelope.dropLast ++ [70]

/-- A private key of the executable instance on the curve P-384, which is not
the package's curve. -/
def sampleP384Priv : PrivateKey := ⟨⟨CurveId.P384, 3, 2⟩, 3⟩

/-- The public key whose coordinates are the library's encoding `(0, 0)` of the
point at infinity. -/
def identityPub : PublicKey := ⟨Curve, 0, 0⟩

/-- A private key with the scalar zero. -/
def zeroPriv : PrivateKey := ⟨identityPub, 0⟩

/-- The envelope `encrypt` returns for `identityPub`, the plaintext `[1, 2, 3]`,
key size 32 and `sampleRnd`. -/
def identityEnvelope : Bytes :=
  [3, 4, 2, 1,
   10, 11, 12, 13, 14, 15, 16, 17, 18, 19, 20, 21, 22, 23, 24, 25,
   30, 31, 32, 33, 34, 35, 36, 37, 38, 39, 40, 41,
   1, 2, 3, 0, 0, 0, 0, 0, 0, 0, 0, 0, 0, 0, 0, 13, 197,
   18, 19, 20, 21, 22, 23, 24, 25, 26, 27, 28, 29, 30, 31, 32, 33, 34, 35, 36, 37]

/-- A well-framed envelope for `samplePriv` with a valid tag and an empty
AEAD-ciphertext region: key encoding, outer IV, then the HMAC of the IV. -/
def sampleNoAead : Bytes :=
  [3, 4, 2, 1,
   10, 11, 12, 13, 14, 15, 16, 17, 18, 19, 20, 21, 22, 23, 24, 25,
   240, 241, 242, 243, 244, 245, 246, 247, 248, 249, 250, 251, 252, 253, 254, 255, 0, 1, 2, 3]

/-- A well-framed envelope for `samplePriv` with a valid tag whose AEAD
ciphertext seals the empty payload (no padding was added before sealing). -/
def sampleEmptyPayload : Bytes :=
  [3, 4, 2, 1,
   10, 11, 12, 13, 14, 15, 16, 17, 18, 19, 20, 21, 22, 23, 24, 25,
   30, 31, 32, 33, 34, 35, 36, 37, 38, 39, 40, 41, 114,
   12, 13, 14, 15, 16, 17, 18, 19, 20, 21, 22, 23, 24, 25, 26, 27, 28, 29, 30, 31]

end ECDH

/-! ## Package `Number` (`utils/number/Number.go`)

Go's `int` and `int64` are 64-bit two's-complement integers; they are modelled
as mathematical integers reduced by `wrap64` after each operation that can
overflow.  A `none` result stands for a run-time panic. -/

namespace Number

/-- The value a Go `int` / `int64` holds after an arithmetic operation whose
mathematical result is `x`: two's complement on 64 bits. -/
def wrap64 (x : Int) : Int := (x + 9223372036854775808) % 18446744073709551616 - 9223372036854775808

/-- The call `rand.Int(rand.Reader, max)`: it panics (`none`) when `max ≤ 0`;
otherwise it returns an error (`some none`) when the reader fails, or a value
in `[0, max)`, here the reader's raw number `v` reduced modulo `max`. -/
def randInt (draw : Option Nat) (max : Int) : Option (Option Int) :=
  if max ≤ 0 then none
  else
    match draw with
    | none => some none
    | some v => some (some ((v : Int) % max))

/-- The call `mathRan.Intn(n)`: it panics (`none`) when `n ≤ 0`, otherwise it
returns a value in `[0, n)`, here the generator's raw number reduced modulo `n`. -/
def mathIntn (draw : Nat) (n : Int) : Option Int :=
  if n ≤ 0 then none else some ((draw : Int) % n)

/-- Function `GenerateInt` (lines 83-97).  `crypto` is the outcome of the
cryptographic reader (`none`: it failed), `pseudo` the raw number of the
fallback generator; the result `none` is a panic. -/
def GenerateInt (low high : Int) (crypto : Option Nat) (pseudo : Nat) : Option Int :=
  if low = high then
    some high
  else
    let lo := if low > high then high else low
    let hi := if low > high then low else high
    match randInt crypto (wrap64 (hi - lo)) with
    | none => none
    | some none =>
      match mathIntn pseudo (wrap64 (hi - lo)) with
      | none => none
      | some r => some (wrap64 (r + lo))
    | some (some n) => some (wrap64 (n + lo))

/-- The conversion `byte(x)` of a signed integer: its residue modulo 256. -/
def byteOfInt (x : Int) : ECDH.Byte := ECDH.toByte (x % 256).toNat

/-- One pass of the loop body `result[i] = byte(num & 255); num >>= 8` on an
unsigned `num`. -/
def stepUnsigned (st : ECDH.Bytes × Nat) (i : Nat) : ECDH.Bytes × Nat :=
  (st.1.set i (ECDH.toByte (st.2 &&& 255)), st.2 >>> 8)

/-- One pass of the loop body `result[i] = byte(num & 255); num >>= 8` on a
signed `num` (two's-complement `&`, arithmetic shift). -/
def stepSigned (st : ECDH.Bytes × Int) (i : Nat) : ECDH.Bytes × Int :=
  (st.1.set i (byteOfInt (Int.land st.2 255)), st.2 >>> (8 : Nat))

/-- Function `Uint64ToBytes` (lines 12-19). -/
def Uint64ToBytes (num : Nat) : ECDH.Bytes :=
  ((List.range 8).foldl stepUnsigned (List.replicate 8 0, num)).1

/-- Function `Int64ToBytes` (lines 22-29). -/
def Int64ToBytes (num : Int) : ECDH.Bytes :=
  ((List.range 8).foldl stepSigned (List.replicate 8 0, num)).1

/-- Function `Uint32ToBytes` (lines 32-39). -/
def Uint32ToBytes (num : Nat) : ECDH.Bytes :=
  ((List.range 4).foldl stepUnsigned (List.replicate 4 0, num)).1

/-- Function `Int32ToBytes` (lines 42-49). -/
def Int32ToBytes (num : Int) : ECDH.Bytes :=
  ((List.range 4).foldl stepSigned (List.replicate 4 0, num)).1

/-- Function `Uint16ToBytes` (lines 52-59). -/
def Uint16ToBytes (num : Nat) : ECDH.Bytes :=
  ((List.range 2).foldl stepUnsigned (List.replicate 2 0, num)).1

/-- Function `Int16ToBytes` (lines 62-69). -/
def Int16ToBytes (num : Int) : ECDH.Bytes :=
  ((List.range 2).foldl stepSigned (List.replicate 2 0, num)).1

/-- The number a byte string denotes least significant byte first: the sum of
`b[i] * 256 ^ i`. -/
def leValue (b : ECDH.Bytes) : Nat :=
  ((List.range b.length).map (fun i => (b.getD i 0).val * 256 ^ i)).sum

/-- The unsigned `w`-bit integer with the same bits as the signed `v`
(two's-complement reinterpretation). -/
def toUnsigned (w : Nat) (v : Int) : Nat := (v % 2 ^ w).toNat

end Number

namespace ECDH

/-! ## Auxiliary facts -/

theorem slice_eq_some (s : Bytes) (lo hi : Int)
    (h : 0 ≤ lo ∧ lo ≤ hi ∧ hi ≤ (s.length : Int)) :
    slice s lo hi = some ((s.take hi.toNat).drop lo.toNat) := by
  simp [slice, h]

theorem slice_eq_none (s : Bytes) (lo hi : Int)
    (h : ¬ (0 ≤ lo ∧ lo ≤ hi ∧ hi ≤ (s.length : Int))) :
    slice s lo hi = none := by
  simp only [slice, if_neg h]

theorem index_zero_cons (b : Byte) (s : Bytes) : index (b :: s) 0 = some b := by
  simp [index]

theorem index_nil (i : Int) : index [] i = none := by
  simp [index]

theorem digestFor_length_ge (P : Primitives) (KeySize x : Int) :
    32 ≤ (digestFor P KeySize x).length := by
  unfold digestFor
  split
  · rw [P.sum384_length]; omega
  · rw [P.sum256_length]

theorem ct_slices (ct : Bytes) (h : 36 ≤ ct.length) :
    slice ct 0 ((ct.length : Int) - (sha1Size : Int)) = some (ct.take (ct.length - 20)) ∧
    slice ct ((ct.length : Int) - (sha1Size : Int)) ct.length
      = some (ct.drop (ct.length - 20)) ∧
    slice ct aesBlockSize ((ct.length : Int) - (sha1Size : Int))
      = some ((ct.take (ct.length - 20)).drop 16) ∧
    slice ct 0 aesBlockSize = some (ct.take 16) := by
  have e : ((ct.length : Int) - (sha1Size : Int)).toNat = ct.length - 20 := by
    simp [sha1Size]; omega
  refine ⟨?_, ?_, ?_, ?_⟩
  · rw [slice_eq_some _ _ _ (by simp [sha1Size]; omega), e]; simp
  · rw [slice_eq_some _ _ _ (by simp [sha1Size]; omega), e]; simp
  · rw [slice_eq_some _ _ _ (by simp [sha1Size, aesBlockSize]; omega), e]; simp [aesBlockSize]
  · rw [slice_eq_some _ _ _ (by simp [aesBlockSize]; omega)]; simp [aesBlockSize]

theorem decrypt_of_agreement (P : Primitives) (priv : PrivateKey) (b0 : Byte) (rest : Bytes)
    (KeySize ex ey x : Int) (y : Option Int)
    (hfit : b0.val ≤ rest.length) (hlen : 36 ≤ rest.length - b0.val)
    (hdec : P.unmarshal Curve (rest.take b0.val) = some (ex, ey))
    (hx : P.scalarMult priv.PublicKey.Curve ex ey (bigIntBytes priv.D) = some (some x, y))
    (hks : 0 ≤ KeySize ∧ KeySize ≤ 32) :
    decrypt P priv (b0 :: rest) KeySize =
      if P.hmacSHA1 ((digestFor P KeySize x).drop KeySize.toNat)
          ((rest.drop b0.val).take (rest.length - b0.val - 20))
          ≠ (rest.drop b0.val).drop (rest.length - b0.val - 20) then
        Outcome.returned none (some "Invalid MAC")
      else
        match DecryptGCM P (((rest.drop b0.val).take (rest.length - b0.val - 20)).drop 16)
            ((rest.drop b0.val).take 16) ((digestFor P KeySize x).take KeySize.toNat) with
        | Outcome.panicked => Outcome.panicked
        | Outcome.returned _ (some err) => Outcome.returned none (some err)
        | Outcome.returned paddedOut none => removePadding (paddedOut.getD []) := by
  have hd := digestFor_length_ge P KeySize x
  unfold decrypt
  simp only [index_zero_cons]
  have h1 : slice (b0 :: rest) 1 (1 + (b0.val : Int)) = some (rest.take b0.val) := by
    rw [slice_eq_some _ _ _ (by simp; omega)]
    have : (1 + (b0.val : Int)).toNat = b0.val + 1 := by omega
    simp [this]
  have h2 : slice (b0 :: rest) (1 + (b0.val : Int)) ((b0 :: rest).length : Int)
      = some (rest.drop b0.val) := by
    rw [slice_eq_some _ _ _ (by simp; omega)]
    have : (1 + (b0.val : Int)).toNat = b0.val + 1 := by omega
    simp [this]
  simp only [h1, h2]
  have hlen2 : ¬ (((rest.drop b0.val).length : Int) < (sha1Size : Int) + (aesBlockSize : Int)) := by
    simp [sha1Size, aesBlockSize]; omega
  simp only [hlen2, if_false, hdec, hx]
  have hsh : ∀ sh : Bytes, sh = digestFor P KeySize x →
      slice sh KeySize sh.length = some (sh.drop KeySize.toNat) ∧
      slice sh 0 KeySize = some (sh.take KeySize.toNat) := by
    intro sh hsh
    subst hsh
    constructor
    · rw [slice_eq_some _ _ _ (by omega)]; simp
    · rw [slice_eq_some _ _ _ (by omega)]; simp
  obtain ⟨k1, k2⟩ := hsh _ rfl
  simp only [digestFor] at k1 k2
  simp only [digestFor, k1, k2]
  have hct : 36 ≤ (rest.drop b0.val).length := by simp; omega
  obtain ⟨c1, c2, c3, c4⟩ := ct_slices _ hct
  simp only [List.length_drop] at c1 c2 c3 ⊢
  simp only [c1, c2, c3, c4]

theorem frame_build (b : Byte) (ephPub iv : Bytes) (hiv : iv.length = 16) :
    copyAt (copyAt ((List.replicate (1 + ephPub.length + aesBlockSize) (0 : Byte)).set 0 b)
      1 ephPub) (1 + ephPub.length) iv = b :: (ephPub ++ iv) := by
  have e : 1 + ephPub.length + aesBlockSize = (ephPub.length + 16) + 1 := by
    simp [aesBlockSize]; omega
  have e1 : 1 + ephPub.length = ephPub.length + 1 := by omega
  rw [e, e1, List.replicate_succ, List.set_cons_zero]
  have s1 : copyAt (b :: List.replicate (ephPub.length + 16) (0 : Byte)) 1 ephPub
      = b :: (ephPub ++ List.replicate 16 0) := by
    have a1 : List.take 1 (b :: List.replicate (ephPub.length + 16) (0 : Byte)) = [b] := by
      simp
    have a2 : List.take ((b :: List.replicate (ephPub.length + 16) (0 : Byte)).length - 1) ephPub
        = ephPub := by
      apply List.take_of_length_le; simp
    have a3 : List.drop (1 + ephPub.length) (b :: List.replicate (ephPub.length + 16) (0 : Byte))
        = List.replicate 16 0 := by
      rw [e1, List.drop_succ_cons, List.drop_replicate]; simp
    unfold copyAt
    rw [a1, a2, a3]; simp
  rw [s1]
  have t1 : List.take (ephPub.length + 1) (b :: (ephPub ++ List.replicate 16 (0 : Byte)))
      = b :: ephPub := by
    rw [List.take_succ_cons, List.take_left']
    rfl
  have t2 : List.drop (ephPub.length + 1 + iv.length)
      (b :: (ephPub ++ List.replicate 16 (0 : Byte))) = [] := by
    apply List.drop_of_length_le
    simp [hiv]
  have t3 : List.take ((b :: (ephPub ++ List.replicate 16 (0 : Byte))).length
      - (ephPub.length + 1)) iv = iv := by
    apply List.take_of_length_le; simp [hiv]
  unfold copyAt
  rw [t1, t2, t3]
  simp


theorem makeRandom_ok (n : Nat) (rnd : Bytes) (h : n ≤ rnd.length) :
    makeRandom n rnd = ((rnd.take n, none), rnd.drop n) := by
  simp [makeRandom, h]

theorem makeRandom_short (n : Nat) (rnd : Bytes) (h : rnd.length < n) :
    ∃ b e r, makeRandom n rnd = ((b, some e), r) := by
  have h' : ¬ n ≤ rnd.length := by omega
  exact ⟨rnd ++ List.replicate (n - rnd.length) 0,
    if rnd.length = 0 then "EOF" else "unexpected EOF", [],
    by simp only [makeRandom, if_neg h']⟩

theorem encrypt_to_marshal (P : Primitives) (pub : PublicKey) (inp : Bytes) (KeySize : Int)
    (rnd rnd1 : Bytes) (ephemeral : PrivateKey) (x : Int) (y : Option Int)
    (hgen : P.generateKey Curve rnd = (Except.ok ephemeral, rnd1))
    (hx : P.scalarMult pub.Curve pub.X pub.Y (bigIntBytes ephemeral.D) = some (some x, y))
    (hr : 28 ≤ rnd1.length)
    (hks : KeySize = 16 ∨ KeySize = 24 ∨ KeySize = 32) :
    encrypt P pub inp KeySize rnd =
      match P.marshal pub.Curve ephemeral.PublicKey.X ephemeral.PublicKey.Y with
      | none => Outcome.panicked
      | some ephPub =>
        Outcome.returned (some (envelopeOf P inp KeySize ephPub x (rnd1.take 16)
          ((rnd1.drop 16).take 12))) none := by
  have hd := digestFor_length_ge P KeySize x
  have k1 : slice (digestFor P KeySize x) 0 KeySize
      = some ((digestFor P KeySize x).take KeySize.toNat) := by
    rw [slice_eq_some _ _ _ (by omega)]; simp
  have k2 : slice (digestFor P KeySize x) KeySize (digestFor P KeySize x).length
      = some ((digestFor P KeySize x).drop KeySize.toNat) := by
    rw [slice_eq_some _ _ _ (by omega)]; simp
  have kl : aesNewCipher ((digestFor P KeySize x).take KeySize.toNat)
      = some ((digestFor P KeySize x).take KeySize.toNat) := by
    have : ((digestFor P KeySize x).take KeySize.toNat).length = KeySize.toNat := by
      rw [List.length_take]; omega
    unfold aesNewCipher
    rw [if_pos]
    rw [this]; omega
  have r1 := makeRandom_ok aesBlockSize rnd1 (by simp [aesBlockSize]; omega)
  have r2 := makeRandom_ok gcmNonceSize (rnd1.drop aesBlockSize)
    (by simp [aesBlockSize, gcmNonceSize]; omega)
  simp only [digestFor] at k1 k2 kl
  unfold encrypt
  simp only [hgen, hx, r1, k1, EncryptGCM, kl, r2, Option.getD_some]
  cases hmar : P.marshal pub.Curve ephemeral.PublicKey.X ephemeral.PublicKey.Y with
  | none => rfl
  | some ephPub =>
    simp only [k2]
    rw [frame_build _ _ _ (by simp [aesBlockSize]; omega)]
    simp [envelopeOf, frame, digestFor, aesBlockSize, gcmNonceSize]

theorem encrypt_of_draws (P : Primitives) (pub : PublicKey) (inp : Bytes) (KeySize : Int)
    (rnd rnd1 ephPub : Bytes) (ephemeral : PrivateKey) (x : Int) (y : Option Int)
    (hgen : P.generateKey Curve rnd = (Except.ok ephemeral, rnd1))
    (hx : P.scalarMult pub.Curve pub.X pub.Y (bigIntBytes ephemeral.D) = some (some x, y))
    (hmar : P.marshal pub.Curve ephemeral.PublicKey.X ephemeral.PublicKey.Y = some ephPub)
    (hr : 28 ≤ rnd1.length)
    (hks : KeySize = 16 ∨ KeySize = 24 ∨ KeySize = 32) :
    encrypt P pub inp KeySize rnd =
      Outcome.returned (some (envelopeOf P inp KeySize ephPub x (rnd1.take 16)
        ((rnd1.drop 16).take 12))) none := by
  rw [encrypt_to_marshal P pub inp KeySize rnd rnd1 ephemeral x y hgen hx hr hks, hmar]

theorem encrypt_cases (P : Primitives) (pub : PublicKey) (inp : Bytes) (KeySize : Int)
    (rnd : Bytes) :
    encrypt P pub inp KeySize rnd = Outcome.panicked ∨
    (∃ e, encrypt P pub inp KeySize rnd = Outcome.returned none (some e)) ∨
    (∃ ephemeral rnd1 x y ephPub,
      P.generateKey Curve rnd = (Except.ok ephemeral, rnd1) ∧
      P.scalarMult pub.Curve pub.X pub.Y (bigIntBytes ephemeral.D) = some (some x, y) ∧
      P.marshal pub.Curve ephemeral.PublicKey.X ephemeral.PublicKey.Y = some ephPub ∧
      28 ≤ rnd1.length ∧ (KeySize = 16 ∨ KeySize = 24 ∨ KeySize = 32) ∧
      encrypt P pub inp KeySize rnd =
        Outcome.returned (some (envelopeOf P inp KeySize ephPub x (rnd1.take 16)
          ((rnd1.drop 16).take 12))) none) := by
  rcases hgen : P.generateKey Curve rnd with ⟨g, rnd1⟩
  cases g with
  | error err =>
    right; left
    exact ⟨err, by simp only [encrypt, hgen]⟩
  | ok ephemeral =>
    cases hx : P.scalarMult pub.Curve pub.X pub.Y (bigIntBytes ephemeral.D) with
    | none =>
      left
      simp only [encrypt, hgen, hx]
    | some r =>
      obtain ⟨rx, y⟩ := r
      cases rx with
      | none =>
        right; left
        exact ⟨"Failed to generate encryption key", by simp only [encrypt, hgen, hx]⟩
      | some x =>
        by_cases h16 : 16 ≤ rnd1.length
        · have r1 := makeRandom_ok aesBlockSize rnd1 (by simpa [aesBlockSize] using h16)
          by_cases hk : 0 ≤ (0 : Int) ∧ (0 : Int) ≤ KeySize ∧
              KeySize ≤ ((digestFor P KeySize x).length : Int)
          · have k1 := slice_eq_some _ _ _ hk
            simp only [digestFor] at k1
            by_cases hc : KeySize = 16 ∨ KeySize = 24 ∨ KeySize = 32
            · by_cases h28 : 28 ≤ rnd1.length
              · have hm := encrypt_to_marshal P pub inp KeySize rnd rnd1 ephemeral x y
                  hgen hx h28 hc
                cases hmar : P.marshal pub.Curve ephemeral.PublicKey.X
                    ephemeral.PublicKey.Y with
                | none =>
                  left
                  rw [hm, hmar]
                | some ephPub =>
                  right; right
                  rw [hmar] at hm
                  exact ⟨ephemeral, rnd1, x, y, ephPub, rfl, hx, hmar, h28, hc, hm⟩
              · right; left
                obtain ⟨b, e, r, hm⟩ := makeRandom_short gcmNonceSize (rnd1.drop aesBlockSize)
                  (by simp [aesBlockSize, gcmNonceSize]; omega)
                have kl : aesNewCipher ((digestFor P KeySize x).take KeySize.toNat)
                    = some ((digestFor P KeySize x).take KeySize.toNat) := by
                  have : ((digestFor P KeySize x).take KeySize.toNat).length
                      = KeySize.toNat := by
                    rw [List.length_take]; omega
                  unfold aesNewCipher
                  rw [if_pos]
                  rw [this]; omega
                simp only [digestFor] at kl
                exact ⟨e, by simp only [encrypt, hgen, hx, r1, k1, Int.toNat_zero,
                  List.drop_zero, EncryptGCM, kl, hm]⟩
            · right; left
              have kl : aesNewCipher ((digestFor P KeySize x).take KeySize.toNat) = none := by
                have : ((digestFor P KeySize x).take KeySize.toNat).length = KeySize.toNat := by
                  rw [List.length_take]; omega
                unfold aesNewCipher
                rw [if_neg]
                rw [this]; omega
              simp only [digestFor] at kl
              exact ⟨ErrEncrypt, by simp only [encrypt, hgen, hx, r1, k1, Int.toNat_zero,
                List.drop_zero, EncryptGCM, kl]⟩
          · left
            have k1 := slice_eq_none _ _ _ hk
            simp only [digestFor] at k1
            simp only [encrypt, hgen, hx, r1, k1]
        · right; left
          obtain ⟨b, e, r, hm⟩ := makeRandom_short aesBlockSize rnd1
            (by simp [aesBlockSize]; omega)
          exact ⟨e, by simp only [encrypt, hgen, hx, hm]⟩

theorem removePadding_error_nil (b : Bytes) (out : Option Bytes) (e : Error)
    (h : removePadding b = Outcome.returned out (some e)) : out = none := by
  unfold removePadding at h
  dsimp only at h
  repeat' split at h
  all_goals first | (cases h; done) | (cases h; rfl)

theorem decrypt_error_nil (P : Primitives) (priv : PrivateKey) (inp : Bytes) (KeySize : Int)
    (out : Option Bytes) (e : Error)
    (h : decrypt P priv inp KeySize = Outcome.returned out (some e)) : out = none := by
  unfold decrypt at h
  dsimp only at h
  repeat' split at h
  all_goals first | (cases h; done) | (cases h; rfl) | exact removePadding_error_nil _ _ _ h

theorem toByte_val_of_lt (n : Nat) (h : n < 256) : (toByte n).val = n := by
  simp [toByte, Nat.mod_eq_of_lt h]

theorem replicate_set_last (k : Nat) (v : Byte) :
    (List.replicate (k + 1) (0 : Byte)).set k v = List.replicate k 0 ++ [v] := by
  induction k with
  | zero => rfl
  | succ k ih =>
    rw [List.replicate_succ, List.set_cons_succ, ih]
    rfl

theorem addPadding_eq (b : Bytes) :
    addPadding b = b ++ (List.replicate (15 - b.length % 16) 0 ++ [toByte (16 - b.length % 16)]) := by
  have h : 16 - b.length % 16 = (15 - b.length % 16) + 1 := by omega
  unfold addPadding
  simp only
  rw [show 16 - b.length % 16 - 1 = 15 - b.length % 16 by omega]
  conv_lhs => rw [h]
  rw [replicate_set_last]
  rw [← h]

theorem removePadding_addPadding (m : Bytes) :
    removePadding (addPadding m) = Outcome.returned (some m) none := by
  have hl : (addPadding m).length = m.length + (16 - m.length % 16) := by
    rw [addPadding_eq]; simp; omega
  have hv : (toByte (16 - m.length % 16)).val = 16 - m.length % 16 :=
    toByte_val_of_lt _ (by omega)
  have hi : index (addPadding m) (((addPadding m).length : Int) - 1)
      = some (toByte (16 - m.length % 16)) := by
    unfold index
    rw [if_pos (by omega)]
    have : (((addPadding m).length : Int) - 1).toNat
        = (m ++ List.replicate (15 - m.length % 16) (0 : Byte)).length := by
      rw [hl]; simp; omega
    rw [this, addPadding_eq, ← List.append_assoc, List.get?_eq_getElem?,
      List.getElem?_append_right (Nat.le_refl _), Nat.sub_self]
    rfl
  unfold removePadding
  rw [hi]
  simp only [hv]
  rw [if_neg (by omega)]
  rw [slice_eq_some _ _ _ (by omega)]
  have : (((addPadding m).length : Int) - ((16 - m.length % 16 : Nat) : Int)).toNat
      = m.length := by
    rw [hl]; omega
  rw [this, addPadding_eq]
  simp


theorem nilIfEmpty_getD (p : Bytes) :
    (if p = [] then (none : Option Bytes) else some p).getD [] = p := by
  split
  · rename_i h; rw [h]; rfl
  · rfl

theorem decryptGCM_nonce_append (P : Primitives) (key nonce sealed iv : Bytes)
    (hk : key.length = 16 ∨ key.length = 24 ∨ key.length = 32) (hn : nonce.length = 12) :
    DecryptGCM P (nonce ++ sealed) iv key =
      match P.gcmOpen key nonce sealed iv with
      | some plain => Outcome.returned (if plain = [] then none else some plain) none
      | none => Outcome.returned none (some "cipher: message authentication failed") := by
  have s1 : slice (nonce ++ sealed) 0 gcmNonceSize = some nonce := by
    rw [slice_eq_some _ _ _ (by simp [gcmNonceSize]; omega)]
    simp [gcmNonceSize, ← hn]
  have s2 : slice (nonce ++ sealed) gcmNonceSize (nonce ++ sealed).length = some sealed := by
    rw [slice_eq_some _ _ _ (by simp [gcmNonceSize]; omega)]
    have e : (((nonce ++ sealed).length : Nat) : Int).toNat = (nonce ++ sealed).length := by
      omega
    rw [e, List.take_length]
    simp [gcmNonceSize, ← hn]
  unfold DecryptGCM
  simp only [aesNewCipher, if_pos hk, s1, s2]

theorem decrypt_frame (P : Primitives) (priv : PrivateKey) (ephPub iv aeadCt tag : Bytes)
    (KeySize ex ey x : Int) (y : Option Int)
    (hpub : ephPub.length ≤ 255) (hiv : iv.length = 16) (htag : tag.length = 20)
    (hdec : P.unmarshal Curve ephPub = some (ex, ey))
    (hx : P.scalarMult priv.PublicKey.Curve ex ey (bigIntBytes priv.D) = some (some x, y))
    (hks : 0 ≤ KeySize ∧ KeySize ≤ 32) :
    decrypt P priv (frame ephPub iv aeadCt tag) KeySize =
      if P.hmacSHA1 ((digestFor P KeySize x).drop KeySize.toNat) (iv ++ aeadCt) ≠ tag then
        Outcome.returned none (some "Invalid MAC")
      else
        match DecryptGCM P aeadCt iv ((digestFor P KeySize x).take KeySize.toNat) with
        | Outcome.panicked => Outcome.panicked
        | Outcome.returned _ (some err) => Outcome.returned none (some err)
        | Outcome.returned paddedOut none => removePadding (paddedOut.getD []) := by
  have hb : (toByte ephPub.length).val = ephPub.length := toByte_val_of_lt _ (by omega)
  have ht : (ephPub ++ iv ++ aeadCt ++ tag).take ephPub.length = ephPub := by
    simp [List.append_assoc]
  have hd : (ephPub ++ iv ++ aeadCt ++ tag).drop ephPub.length = iv ++ aeadCt ++ tag := by
    simp [List.append_assoc]
  have hl : (ephPub ++ iv ++ aeadCt ++ tag).length - ephPub.length - 20
      = (iv ++ aeadCt).length := by
    simp [htag]; omega
  unfold frame
  rw [decrypt_of_agreement P priv (toByte ephPub.length) (ephPub ++ iv ++ aeadCt ++ tag)
    KeySize ex ey x y (by rw [hb]; simp) (by rw [hb]; simp [hiv, htag]; omega)
    (by rw [hb, ht]; exact hdec) hx hks]
  rw [hb, hd, hl, List.take_left' rfl, List.drop_left' rfl]
  have h16 : (iv ++ aeadCt ++ tag).take 16 = iv := by
    rw [List.append_assoc, List.take_left' hiv]
  have h16' : (iv ++ aeadCt).drop 16 = aeadCt := by
    rw [List.drop_left' hiv]
  rw [h16, h16']

theorem encKey_length (P : Primitives) (KeySize x : Int) (hks : KeySize = 16 ∨ KeySize = 32) :
    ((digestFor P KeySize x).take KeySize.toNat).length = 16 ∨
    ((digestFor P KeySize x).take KeySize.toNat).length = 32 := by
  have hd := digestFor_length_ge P KeySize x
  rw [List.length_take]
  omega

theorem decrypt_envelopeOf (P : Primitives) (priv : PrivateKey) (inp : Bytes)
    (KeySize : Int) (ephPub : Bytes) (ex ey x : Int) (y : Option Int) (iv nonce : Bytes)
    (hks : KeySize = 16 ∨ KeySize = 32) (hiv : iv.length = 16) (hn : nonce.length = 12)
    (hlen : ephPub.length ≤ 255)
    (hdec : P.unmarshal Curve ephPub = some (ex, ey))
    (hx : P.scalarMult priv.PublicKey.Curve ex ey (bigIntBytes priv.D) = some (some x, y))
    (hgcm : ∀ key nonce data aad : Bytes, key.length = 16 ∨ key.length = 32 →
      nonce.length = 12 → P.gcmOpen key nonce (P.gcmSeal key nonce data aad) aad = some data) :
    decrypt P priv (envelopeOf P inp KeySize ephPub x iv nonce) KeySize
      = Outcome.returned (some inp) none := by
  have hk := encKey_length P KeySize x hks
  unfold envelopeOf
  rw [decrypt_frame P priv _ iv _ _ KeySize ex ey x y hlen hiv (P.hmacSHA1_length _ _) hdec hx
    (by omega)]
  rw [if_neg (by simp)]
  rw [decryptGCM_nonce_append P _ nonce _ iv (by omega) hn, hgcm _ _ _ _ hk hn]
  simp only [nilIfEmpty_getD]
  exact removePadding_addPadding inp

theorem flipByte_ne (c : Byte) (k : Nat) (hk : k < 8) : flipByte c k ≠ c := by
  intro h
  have hlt : c.val ^^^ 2 ^ k < 256 := by
    have : c.val ^^^ 2 ^ k < 2 ^ 8 :=
      Nat.xor_lt_two_pow c.isLt (Nat.pow_lt_pow_right (by decide) hk)
    simpa using this
  have h1 : c.val ^^^ 2 ^ k = c.val := by
    have h0 : (c.val ^^^ 2 ^ k) % 256 = c.val := congrArg Fin.val h
    rwa [Nat.mod_eq_of_lt hlt] at h0
  have h2 : c.val ^^^ (c.val ^^^ 2 ^ k) = c.val ^^^ c.val := by rw [h1]
  rw [Nat.xor_cancel_left, Nat.xor_self] at h2
  exact absurd h2 (by positivity)

theorem flipBit_length (b : Bytes) (i k : Nat) : (flipBit b i k).length = b.length := by
  simp [flipBit]

theorem flipBit_ne (b : Bytes) (i k : Nat) (hi : i < b.length) (hk : k < 8) :
    flipBit b i k ≠ b := by
  intro h
  have h1 : (flipBit b i k)[i]? = b[i]? := by rw [h]
  unfold flipBit at h1
  rw [List.getElem?_set_self hi, List.getD_eq_getElem?_getD, List.getElem?_eq_getElem hi] at h1
  simp only [Option.getD_some, Option.some.injEq] at h1
  exact flipByte_ne _ k hk h1

theorem flipBit_append_right (pre tag : Bytes) (i k : Nat) (hi : pre.length ≤ i) :
    flipBit (pre ++ tag) i k = pre ++ flipBit tag (i - pre.length) k := by
  unfold flipBit
  rw [List.set_append, if_neg (by omega), List.getD_append_right _ _ _ _ hi]

theorem toy_gcm_open_seal (key nonce data aad : Bytes) :
    toy.gcmOpen key nonce (toy.gcmSeal key nonce data aad) aad = some data := by
  simp [toy]

theorem toy_generateKey_sampleRnd (ephemeral : PrivateKey) (rnd1 : Bytes)
    (h : toy.generateKey Curve sampleRnd = (Except.ok ephemeral, rnd1)) :
    ephemeral = ⟨⟨Curve, 2, 1⟩, 2⟩ ∧ rnd1 = sampleRnd.tail := by
  have e : toy.generateKey Curve sampleRnd
      = (Except.ok ⟨⟨Curve, 2, 1⟩, 2⟩, sampleRnd.tail) := rfl
  rw [e] at h
  cases h
  exact ⟨rfl, rfl⟩

theorem header_slices (b0 : Byte) (rest : Bytes) (hfit : b0.val ≤ rest.length) :
    slice (b0 :: rest) 1 (1 + (b0.val : Int)) = some (rest.take b0.val) ∧
    slice (b0 :: rest) (1 + (b0.val : Int)) ((b0 :: rest).length : Int)
      = some (rest.drop b0.val) := by
  have e : (1 + (b0.val : Int)).toNat = b0.val + 1 := by omega
  constructor
  · rw [slice_eq_some _ _ _ (by simp; omega), e]; simp
  · rw [slice_eq_some _ _ _ (by simp; omega), e]; simp

theorem flipBit_frame_tag (ephPub iv aeadCt tag : Bytes) (i k : Nat)
    (hi : (frame ephPub iv aeadCt tag).length - tag.length ≤ i) :
    flipBit (frame ephPub iv aeadCt tag) i k
      = frame ephPub iv aeadCt
          (flipBit tag (i - (1 + ephPub.length + iv.length + aeadCt.length)) k) := by
  have e : frame ephPub iv aeadCt tag = (toByte ephPub.length :: (ephPub ++ iv ++ aeadCt)) ++ tag := by
    simp [frame]
  have hl : (toByte ephPub.length :: (ephPub ++ iv ++ aeadCt)).length
      = 1 + ephPub.length + iv.length + aeadCt.length := by
    simp; omega
  rw [e] at hi ⊢
  rw [flipBit_append_right _ _ _ _ (by simp at hi ⊢; omega), hl]
  simp [frame]

theorem usesKeys_of_keySize (P : Primitives) (KeySize x : Int)
    (hks : KeySize = 16 ∨ KeySize = 32) :
    UsesKeys P (fun pub inp rnd => encrypt P pub inp KeySize rnd)
      (fun priv inp => decrypt P priv inp KeySize) x
      ((digestFor P KeySize x).take KeySize.toNat)
      ((digestFor P KeySize x).drop KeySize.toNat) := by
  constructor
  · intro pub inp rnd rnd1 ephPub eph y hgen hx hmar hr
    exact encrypt_of_draws P pub inp KeySize rnd rnd1 ephPub eph x y hgen hx hmar hr
      (by omega)
  · intro priv ephPub iv aeadCt tag ex ey y hpub hiv htag hdec hx
    exact decrypt_frame P priv ephPub iv aeadCt tag KeySize ex ey x y hpub hiv htag hdec hx
      (by omega)

theorem bigIntBytesAux_value (fuel n : Nat) (acc : Bytes) (h : n ≤ fuel) :
    bytesValue (bigIntBytesAux fuel n acc) = n * 256 ^ acc.length + bytesValue acc := by
  induction fuel generalizing n acc with
  | zero =>
    have : n = 0 := by omega
    subst this
    simp [bigIntBytesAux]
  | succ fuel ih =>
    unfold bigIntBytesAux
    split
    · rename_i h0
      subst h0
      simp
    · rename_i h0
      rw [ih (n / 256) (toByte n :: acc) (by omega)]
      simp only [bytesValue, List.length_cons, toByte, pow_succ]
      have hn := Nat.div_add_mod n 256
      generalize 256 ^ acc.length = q
      generalize n / 256 = d at hn ⊢
      generalize n % 256 = m at hn ⊢
      subst hn
      ring

/-- The bytes produced by `bigIntBytes` denote the absolute value: the fuel
suffices for every argument. -/
theorem bigIntBytes_value (x : Int) : bytesValue (bigIntBytes x) = x.natAbs := by
  unfold bigIntBytes
  rw [bigIntBytesAux_value _ _ _ (Nat.le_refl _)]
  simp [bytesValue]

theorem removePadding_snoc (pre : Bytes) (c : Byte) :
    removePadding (pre ++ [c]) =
      if c.val > 16 then Outcome.returned none (some "Padding incorrect")
      else if pre.length + 1 < c.val then Outcome.panicked
      else Outcome.returned (some ((pre ++ [c]).take (pre.length + 1 - c.val))) none := by
  have hi : index (pre ++ [c]) (((pre ++ [c]).length : Int) - 1) = some c := by
    unfold index
    rw [if_pos (by simp)]
    have : (((pre ++ [c]).length : Int) - 1).toNat = pre.length := by simp
    rw [this, List.get?_eq_getElem?, List.getElem?_append_right (Nat.le_refl _), Nat.sub_self]
    rfl
  unfold removePadding
  rw [hi]
  simp only
  by_cases h16 : c.val > 16
  · have h16' : ((c.val : Nat) : Int) > 16 := by omega
    rw [if_pos h16', if_pos h16]
  · have h16' : ¬ ((c.val : Nat) : Int) > 16 := by omega
    rw [if_neg h16', if_neg h16]
    by_cases hs : pre.length + 1 < c.val
    · rw [if_pos hs, slice_eq_none _ _ _ (by simp; omega)]
    · rw [if_neg hs, slice_eq_some _ _ _ (by simp; omega)]
      have : (((pre ++ [c]).length : Int) - ((c.val : Nat) : Int)).toNat
          = pre.length + 1 - c.val := by
        have hl : (pre ++ [c]).length = pre.length + 1 := by simp
        rw [hl]; omega
      rw [this]
      simp

theorem decryptGCM_short (P : Primitives) (data iv key : Bytes)
    (hk : key.length = 16 ∨ key.length = 24 ∨ key.length = 32) (h : data.length < 12) :
    DecryptGCM P data iv key = Outcome.panicked := by
  have s1 : slice data 0 gcmNonceSize = none :=
    slice_eq_none _ _ _ (by simp [gcmNonceSize]; omega)
  simp only [DecryptGCM, aesNewCipher, if_pos hk, s1]

theorem decryptGCM_split (P : Primitives) (data iv key : Bytes)
    (hk : key.length = 16 ∨ key.length = 24 ∨ key.length = 32) (h : 12 ≤ data.length) :
    DecryptGCM P data iv key =
      match P.gcmOpen key (data.take 12) (data.drop 12) iv with
      | some plain => Outcome.returned (if plain = [] then none else some plain) none
      | none => Outcome.returned none (some "cipher: message authentication failed") := by
  have hn : (data.take 12).length = 12 := by rw [List.length_take]; omega
  have := decryptGCM_nonce_append P key (data.take 12) (data.drop 12) iv hk hn
  rwa [List.take_append_drop] at this

theorem removePadding_nil : removePadding [] = Outcome.panicked := by
  simp only [removePadding, index_nil]

theorem agreement_of_same_x (A B : Option (Option Int × Option Int)) (x : Int) (y : Option Int)
    (hA : A = some (some x, y)) (h : A.map Prod.fst = B.map Prod.fst) :
    ∃ y', B = some (some x, y') := by
  subst hA
  cases B with
  | none => cases h
  | some r =>
    obtain ⟨bx, by'⟩ := r
    simp only [Option.map_some', Option.some.injEq] at h
    exact ⟨by', by rw [← h]⟩

theorem decrypt_wellframed (P : Primitives) (priv : PrivateKey) (b0 : Byte) (rest : Bytes)
    (KeySize : Int)
    (hfit : b0.val ≤ rest.length) (hlen : 36 ≤ rest.length - b0.val)
    (hks : 0 ≤ KeySize ∧ KeySize ≤ 32) :
    decrypt P priv (b0 :: rest) KeySize =
      match P.unmarshal Curve (rest.take b0.val) with
      | none => Outcome.returned none (some "Invalid public key")
      | some (ex, ey) =>
        match P.scalarMult priv.PublicKey.Curve ex ey (bigIntBytes priv.D) with
        | none => Outcome.panicked
        | some (none, _) => Outcome.returned none (some "Failed to generate encryption key")
        | some (some x, _) =>
          if P.hmacSHA1 ((digestFor P KeySize x).drop KeySize.toNat)
              ((rest.drop b0.val).take (rest.length - b0.val - 20))
              ≠ (rest.drop b0.val).drop (rest.length - b0.val - 20) then
            Outcome.returned none (some "Invalid MAC")
          else
            match DecryptGCM P (((rest.drop b0.val).take (rest.length - b0.val - 20)).drop 16)
                ((rest.drop b0.val).take 16) ((digestFor P KeySize x).take KeySize.toNat) with
            | Outcome.panicked => Outcome.panicked
            | Outcome.returned _ (some err) => Outcome.returned none (some err)
            | Outcome.returned paddedOut none => removePadding (paddedOut.getD []) := by
  obtain ⟨h1, h2⟩ := header_slices b0 rest hfit
  have hlen2 : ¬ (((rest.drop b0.val).length : Int) < (sha1Size : Int) + (aesBlockSize : Int)) := by
    simp [sha1Size, aesBlockSize]; omega
  cases hdec : P.unmarshal Curve (rest.take b0.val) with
  | none => simp only [decrypt, index_zero_cons, h1, h2, hlen2, if_false, hdec]
  | some p =>
    obtain ⟨ex, ey⟩ := p
    cases hx : P.scalarMult priv.PublicKey.Curve ex ey (bigIntBytes priv.D) with
    | none => simp only [decrypt, index_zero_cons, h1, h2, hlen2, if_false, hdec, hx]
    | some r =>
      obtain ⟨rx, y⟩ := r
      cases rx with
      | none => simp only [decrypt, index_zero_cons, h1, h2, hlen2, if_false, hdec, hx]
      | some x =>
        rw [decrypt_of_agreement P priv b0 rest KeySize ex ey x y hfit hlen hdec hx hks]
        simp only [hx]

theorem bigIntBytesAux_head (fuel n : Nat) (acc : Bytes) (h : n ≤ fuel)
    (hacc : n = 0 → acc.head? ≠ some 0) :
    (bigIntBytesAux fuel n acc).head? ≠ some 0 := by
  induction fuel generalizing n acc with
  | zero =>
    have h0 : n = 0 := by omega
    simpa [bigIntBytesAux] using hacc h0
  | succ fuel ih =>
    unfold bigIntBytesAux
    split
    · rename_i h0
      exact hacc h0
    · rename_i h0
      apply ih (n / 256) (toByte n :: acc) (by omega)
      intro hq
      have hlt : n < 256 := by
        rcases Nat.div_eq_zero_iff (by decide : 0 < 256) |>.mp hq with h1
        exact h1
      intro hc
      have hv : (toByte n).val = 0 := by
        have e : toByte n = 0 := by simpa using hc
        rw [e]; rfl
      rw [toByte_val_of_lt n hlt] at hv
      exact h0 hv

theorem bigIntBytes_head (x : Int) : (bigIntBytes x).head? ≠ some 0 := by
  unfold bigIntBytes
  exact bigIntBytesAux_head _ _ _ (Nat.le_refl _) (fun _ => by simp)

theorem decrypt_frame_cases (P : Primitives) (priv : PrivateKey) (ephPub iv aeadCt tag : Bytes)
    (KeySize : Int)
    (hpub : ephPub.length ≤ 255) (hiv : iv.length = 16) (htag : tag.length = 20)
    (hks : 0 ≤ KeySize ∧ KeySize ≤ 32) :
    decrypt P priv (frame ephPub iv aeadCt tag) KeySize =
      match P.unmarshal Curve ephPub with
      | none => Outcome.returned none (some "Invalid public key")
      | some (ex, ey) =>
        match P.scalarMult priv.PublicKey.Curve ex ey (bigIntBytes priv.D) with
        | none => Outcome.panicked
        | some (none, _) => Outcome.returned none (some "Failed to generate encryption key")
        | some (some x, _) =>
          if P.hmacSHA1 ((digestFor P KeySize x).drop KeySize.toNat) (iv ++ aeadCt) ≠ tag then
            Outcome.returned none (some "Invalid MAC")
          else
            match DecryptGCM P aeadCt iv ((digestFor P KeySize x).take KeySize.toNat) with
            | Outcome.panicked => Outcome.panicked
            | Outcome.returned _ (some err) => Outcome.returned none (some err)
            | Outcome.returned paddedOut none => removePadding (paddedOut.getD []) := by
  have hb : (toByte ephPub.length).val = ephPub.length := toByte_val_of_lt _ (by omega)
  have ht : (ephPub ++ iv ++ aeadCt ++ tag).take ephPub.length = ephPub := by
    simp [List.append_assoc]
  have hw := decrypt_wellframed P priv (toByte ephPub.length) (ephPub ++ iv ++ aeadCt ++ tag)
    KeySize (by rw [hb]; simp) (by rw [hb]; simp [hiv, htag]; omega) hks
  rw [hb, ht] at hw
  cases hdec : P.unmarshal Curve ephPub with
  | none =>
    unfold frame
    rw [hw]
    simp only [hdec]
  | some p =>
    obtain ⟨ex, ey⟩ := p
    cases hx : P.scalarMult priv.PublicKey.Curve ex ey (bigIntBytes priv.D) with
    | none =>
      unfold frame
      rw [hw]
      simp only [hdec, hx]
    | some r =>
      obtain ⟨rx, y⟩ := r
      cases rx with
      | none =>
        unfold frame
        rw [hw]
        simp only [hdec, hx]
      | some x =>
        rw [decrypt_frame P priv ephPub iv aeadCt tag KeySize ex ey x y hpub hiv htag hdec hx hks]
        simp only [hx]

/-! ## The claims -/

/-- C1 (round trip of the envelope).  For a key pair on the package's fixed
curve, any plaintext, both key sizes and any state of the random source:
every envelope that `encrypt` returns is decrypted by `decrypt` to the
plaintext with a nil error; and `encrypt` does return an envelope whenever the
random source delivers the ephemeral key, 16 bytes of IV and 12 bytes of nonce
and the agreement returns a non-nil coordinate.  The primitives are arbitrary,
assumed only to satisfy ECDH symmetry (the two scalar multiplications yield the
same X) and marshal/unmarshal inversion (with at most 255 bytes) for the
generated ephemeral key, and `Open (Seal data) = data`. -/
theorem decrypt_encrypt_roundtrip (P : Primitives) (pub : PublicKey) (priv : PrivateKey)
    (inp : Bytes) (KeySize : Int) (rnd : Bytes)
    (hpub : pub.Curve = Curve) (hpriv : priv.PublicKey.Curve = Curve)
    (hks : KeySize = 16 ∨ KeySize = 32)
    (hsym : ∀ ephemeral rnd1, P.generateKey Curve rnd = (Except.ok ephemeral, rnd1) →
      (P.scalarMult Curve pub.X pub.Y (bigIntBytes ephemeral.D)).map Prod.fst
        = (P.scalarMult Curve ephemeral.PublicKey.X ephemeral.PublicKey.Y
            (bigIntBytes priv.D)).map Prod.fst)
    (hmarshal : ∀ ephemeral rnd1, P.generateKey Curve rnd = (Except.ok ephemeral, rnd1) →
      ∃ ephPub, P.marshal Curve ephemeral.PublicKey.X ephemeral.PublicKey.Y = some ephPub ∧
        P.unmarshal Curve ephPub = some (ephemeral.PublicKey.X, ephemeral.PublicKey.Y) ∧
        ephPub.length ≤ 255)
    (hgcm : ∀ key nonce data aad : Bytes, key.length = 16 ∨ key.length = 32 →
      nonce.length = 12 → P.gcmOpen key nonce (P.gcmSeal key nonce data aad) aad = some data) :
    (∀ E, encrypt P pub inp KeySize rnd = Outcome.returned (some E) none →
      decrypt P priv E KeySize = Outcome.returned (some inp) none) ∧
    (∀ ephemeral rnd1 x y, P.generateKey Curve rnd = (Except.ok ephemeral, rnd1) →
      P.scalarMult Curve pub.X pub.Y (bigIntBytes ephemeral.D) = some (some x, y) →
      28 ≤ rnd1.length →
      ∃ E, encrypt P pub inp KeySize rnd = Outcome.returned (some E) none) := by
  constructor
  · intro E hE
    rcases encrypt_cases P pub inp KeySize rnd with
      h | ⟨e, h⟩ | ⟨eph, rnd1, x, y, ephPub, hgen, hx, hmar, hr, _, h⟩
    · rw [h] at hE; cases hE
    · rw [h] at hE; cases hE
    · rw [h] at hE
      cases hE
      obtain ⟨b, hm0, hm1, hm2⟩ := hmarshal eph rnd1 hgen
      have hs := hsym eph rnd1 hgen
      rw [hpub] at hx hmar
      rw [hm0] at hmar
      have hbe : b = ephPub := Option.some.inj hmar
      rw [hbe] at hm1 hm2
      obtain ⟨y', hx'⟩ := agreement_of_same_x _ _ x y hx hs
      refine decrypt_envelopeOf P priv inp KeySize ephPub eph.PublicKey.X eph.PublicKey.Y x y'
        _ _ hks ?_ ?_ hm2 hm1 (by rw [hpriv]; exact hx') hgcm
      · rw [List.length_take]; omega
      · rw [List.length_take, List.length_drop]; omega
  · intro eph rnd1 x y hgen hx hr
    obtain ⟨b, hm0, _, _⟩ := hmarshal eph rnd1 hgen
    rw [← hpub] at hx hm0
    exact ⟨_, encrypt_of_draws P pub inp KeySize rnd rnd1 b eph x y hgen hx hm0 hr (by omega)⟩

/-- Witness of C1 on the executable instance: `encrypt` returns
`sampleEnvelope` for the plaintext `[1, 2, 3]`, and `decrypt` returns the
plaintext from it. -/
theorem decrypt_encrypt_roundtrip_witness :
    encrypt toy samplePub [1, 2, 3] 32 sampleRnd = Outcome.returned (some sampleEnvelope) none ∧
    decrypt toy samplePriv sampleEnvelope 32 = Outcome.returned (some [1, 2, 3]) none :=
  ⟨rfl,
   (decrypt_encrypt_roundtrip toy samplePub samplePriv [1, 2, 3] 32 sampleRnd rfl rfl
      (Or.inr rfl)
      (fun ephemeral rnd1 h => by
        obtain ⟨rfl, _⟩ := toy_generateKey_sampleRnd ephemeral rnd1 h
        decide)
      (fun ephemeral rnd1 h => by
        obtain ⟨rfl, _⟩ := toy_generateKey_sampleRnd ephemeral rnd1 h
        exact ⟨[4, 2, 1], by decide, by decide, by decide⟩)
      (fun key nonce data aad _ _ => toy_gcm_open_seal key nonce data aad)).1
    sampleEnvelope rfl⟩

/-- C2 (exact wire format of `encrypt`).  Whenever `encrypt` returns with a
nil error, the random source has delivered an ephemeral key, a 16-byte outer
IV `iv` and a 12-byte nonce `n`, the agreement gave a non-nil `x`, and the
returned bytes are exactly
`[byte(len(ephPub))] ++ ephPub ++ iv ++ aeadCt ++ HMAC-SHA1(macKey, iv ++ aeadCt)`
with `ephPub` the marshalled ephemeral public point and
`aeadCt = n ++ Seal(encKey, n, addPadding(in), aad = iv)`; the tag is 20 bytes long
and is the last field. -/
theorem encrypt_wire_format (P : Primitives) (pub : PublicKey) (inp : Bytes) (KeySize : Int)
    (rnd : Bytes) (out : Option Bytes)
    (h : encrypt P pub inp KeySize rnd = Outcome.returned out none) :
    ∃ ephemeral rnd1 x y iv n encKey macKey ephPub aeadCt tag,
      P.generateKey Curve rnd = (Except.ok ephemeral, rnd1) ∧
      P.scalarMult pub.Curve pub.X pub.Y (bigIntBytes ephemeral.D) = some (some x, y) ∧
      iv = rnd1.take 16 ∧ iv.length = 16 ∧
      n = (rnd1.drop 16).take 12 ∧ n.length = 12 ∧
      encKey = (digestFor P KeySize x).take KeySize.toNat ∧
      macKey = (digestFor P KeySize x).drop KeySize.toNat ∧
      P.marshal pub.Curve ephemeral.PublicKey.X ephemeral.PublicKey.Y = some ephPub ∧
      aeadCt = n ++ P.gcmSeal encKey n (addPadding inp) iv ∧
      tag = P.hmacSHA1 macKey (iv ++ aeadCt) ∧ tag.length = 20 ∧
      out = some ([toByte ephPub.length] ++ ephPub ++ iv ++ aeadCt ++ tag) := by
  rcases encrypt_cases P pub inp KeySize rnd with
    h' | ⟨e, h'⟩ | ⟨eph, rnd1, x, y, ephPub, hgen, hx, hmar, hr, _, h'⟩
  · rw [h'] at h; cases h
  · rw [h'] at h; cases h
  · rw [h'] at h
    cases h
    refine ⟨eph, rnd1, x, y, _, _, _, _, ephPub, _, _, hgen, hx, rfl, ?_, rfl, ?_, rfl, rfl,
      hmar, rfl, rfl, P.hmacSHA1_length _ _, ?_⟩
    · rw [List.length_take]; omega
    · rw [List.length_take, List.length_drop]; omega
    · simp [envelopeOf, frame]

/-- Witness of C2 on the executable instance: the envelope of `[1, 2, 3]`
under `sampleRnd` has the stated layout. -/
theorem encrypt_wire_format_witness :
    ∃ ephemeral rnd1 x y iv n encKey macKey ephPub aeadCt tag,
      toy.generateKey Curve sampleRnd = (Except.ok ephemeral, rnd1) ∧
      toy.scalarMult samplePub.Curve samplePub.X samplePub.Y (bigIntBytes ephemeral.D)
        = some (some x, y) ∧
      iv = rnd1.take 16 ∧ iv.length = 16 ∧
      n = (rnd1.drop 16).take 12 ∧ n.length = 12 ∧
      encKey = (digestFor toy 32 x).take (32 : Int).toNat ∧
      macKey = (digestFor toy 32 x).drop (32 : Int).toNat ∧
      toy.marshal samplePub.Curve ephemeral.PublicKey.X ephemeral.PublicKey.Y = some ephPub ∧
      aeadCt = n ++ toy.gcmSeal encKey n (addPadding [1, 2, 3]) iv ∧
      tag = toy.hmacSHA1 macKey (iv ++ aeadCt) ∧ tag.length = 20 ∧
      some sampleEnvelope = some ([toByte ephPub.length] ++ ephPub ++ iv ++ aeadCt ++ tag) :=
  encrypt_wire_format toy samplePub [1, 2, 3] 32 sampleRnd (some sampleEnvelope) rfl

/-- C3, as stated for every private key, fails for a key on another curve than
the package's: the envelope `sampleBadTag` is well framed (three key bytes that
decode on P-256, 65 bytes after them), and for the P-384 key `sampleP384Priv`
the scalar multiplication of line 130 panics on the decoded P-256 point (no
`x`, hence no MAC key, is ever computed), so `decrypt` panics instead of
returning an error. -/
theorem decrypt_mac_mismatch_counterexample :
    sampleBadTag = 3 :: sampleBadTag.tail ∧
    (3 : Byte).val ≤ sampleBadTag.tail.length ∧
    36 ≤ sampleBadTag.tail.length - (3 : Byte).val ∧
    toy.unmarshal Curve (sampleBadTag.tail.take (3 : Byte).val) = some (2, 1) ∧
    toy.scalarMult sampleP384Priv.PublicKey.Curve 2 1 (bigIntBytes sampleP384Priv.D) = none ∧
    decrypt toy sampleP384Priv sampleBadTag 32 = Outcome.panicked ∧
    ¬ ∃ e, decrypt toy sampleP384Priv sampleBadTag 32 = Outcome.returned none (some e) := by
  have e : decrypt toy sampleP384Priv sampleBadTag 32 = Outcome.panicked := rfl
  refine ⟨rfl, by decide, by decide, rfl, rfl, e, ?_⟩
  rintro ⟨err, h⟩
  rw [e] at h
  cases h

/-- C3, amended (verify-then-decrypt).  For a private key at which the scalar
multiplication of line 130 does not panic on the decoded ephemeral point (as
for the keys on the package's curve), and an envelope `b0 :: rest` whose
declared ephemeral key length fits, with at least 36 bytes after the key and a
key that decodes: if the trailing 20 bytes differ from the HMAC-SHA1 of the
bytes before them under the MAC key `decrypt` derives (for whatever non-nil
`x` the agreement yields), then `decrypt` returns a nil slice and a non-nil
error, and it is the same error for every AEAD open function: the open
function is not consulted. -/
theorem decrypt_mac_mismatch_before_open (P : Primitives) (priv : PrivateKey) (b0 : Byte)
    (rest : Bytes) (KeySize ex ey : Int)
    (hfit : b0.val ≤ rest.length) (hlen : 36 ≤ rest.length - b0.val)
    (hdec : P.unmarshal Curve (rest.take b0.val) = some (ex, ey))
    (hret : P.scalarMult priv.PublicKey.Curve ex ey (bigIntBytes priv.D) ≠ none)
    (hks : 0 ≤ KeySize ∧ KeySize ≤ 32)
    (hmac : ∀ x y,
      P.scalarMult priv.PublicKey.Curve ex ey (bigIntBytes priv.D) = some (some x, y) →
      (rest.drop b0.val).drop (rest.length - b0.val - 20) ≠
        P.hmacSHA1 ((digestFor P KeySize x).drop KeySize.toNat)
          ((rest.drop b0.val).take (rest.length - b0.val - 20))) :
    ∃ e, ∀ f, decrypt (withOpen P f) priv (b0 :: rest) KeySize
      = Outcome.returned none (some e) := by
  cases hx : P.scalarMult priv.PublicKey.Curve ex ey (bigIntBytes priv.D) with
  | none => exact absurd hx hret
  | some r =>
    obtain ⟨rx, y⟩ := r
    cases rx with
    | none =>
      refine ⟨"Failed to generate encryption key", fun f => ?_⟩
      have hdec' : (withOpen P f).unmarshal Curve (rest.take b0.val) = some (ex, ey) := hdec
      have hx' : (withOpen P f).scalarMult priv.PublicKey.Curve ex ey (bigIntBytes priv.D)
          = some (none, y) := hx
      rw [decrypt_wellframed (withOpen P f) priv b0 rest KeySize hfit hlen hks]
      simp only [hdec', hx']
    | some x =>
      refine ⟨"Invalid MAC", fun f => ?_⟩
      have hm := hmac x y hx
      rw [decrypt_of_agreement (withOpen P f) priv b0 rest KeySize ex ey x y hfit hlen hdec hx
        hks]
      exact if_pos (fun h => hm h.symm)

/-- Witness of C3 (amended) on the executable instance: for the P-256 key
`samplePriv` the envelope `sampleBadTag` is rejected with one error whatever
the AEAD open function is. -/
theorem decrypt_mac_mismatch_before_open_witness :
    ∃ e, ∀ f, decrypt (withOpen toy f) samplePriv sampleBadTag 32
      = Outcome.returned none (some e) :=
  decrypt_mac_mismatch_before_open toy samplePriv 3 sampleBadTag.tail 32 2 1
    (by decide) (by decide) rfl (by decide) (by decide)
    (fun x y hx => by
      have h6 : some (some (6 : Int), some (1 : Int)) = some (some x, y) := hx
      cases h6
      decide)

/-- C4 (tamper detection on the MAC tag).  If `encrypt` returns the envelope
`E` for a key pair on the fixed curve (ECDH symmetry and marshal/unmarshal
inversion assumed for the generated ephemeral key), for any key size, then `E` with any single
bit `k` of any byte `i` of its trailing 20 bytes inverted is rejected by
`decrypt` with the error "Invalid MAC" and a nil result. -/
theorem decrypt_flipped_tag_bit (P : Primitives) (pub : PublicKey) (priv : PrivateKey)
    (inp : Bytes) (KeySize : Int) (rnd E : Bytes) (i k : Nat)
    (hpub : pub.Curve = Curve) (hpriv : priv.PublicKey.Curve = Curve)
    (hsym : ∀ ephemeral rnd1, P.generateKey Curve rnd = (Except.ok ephemeral, rnd1) →
      (P.scalarMult Curve pub.X pub.Y (bigIntBytes ephemeral.D)).map Prod.fst
        = (P.scalarMult Curve ephemeral.PublicKey.X ephemeral.PublicKey.Y
            (bigIntBytes priv.D)).map Prod.fst)
    (hmarshal : ∀ ephemeral rnd1, P.generateKey Curve rnd = (Except.ok ephemeral, rnd1) →
      ∃ ephPub, P.marshal Curve ephemeral.PublicKey.X ephemeral.PublicKey.Y = some ephPub ∧
        P.unmarshal Curve ephPub = some (ephemeral.PublicKey.X, ephemeral.PublicKey.Y) ∧
        ephPub.length ≤ 255)
    (henc : encrypt P pub inp KeySize rnd = Outcome.returned (some E) none)
    (hi : E.length - 20 ≤ i ∧ i < E.length) (hk : k < 8) :
    decrypt P priv (flipBit E i k) KeySize = Outcome.returned none (some "Invalid MAC") := by
  rcases encrypt_cases P pub inp KeySize rnd with
    h | ⟨e, h⟩ | ⟨eph, rnd1, x, y, ephPub, hgen, hx, hmar, hr, hks, h⟩
  · rw [h] at henc; cases henc
  · rw [h] at henc; cases henc
  · rw [h] at henc
    cases henc
    obtain ⟨b, hm0, hm1, hm2⟩ := hmarshal eph rnd1 hgen
    have hs := hsym eph rnd1 hgen
    rw [hpub] at hx hmar
    rw [hm0] at hmar
    have hbe : b = ephPub := Option.some.inj hmar
    rw [hbe] at hm1 hm2
    obtain ⟨y', hx'⟩ := agreement_of_same_x _ _ x y hx hs
    have hiv : (rnd1.take 16).length = 16 := by rw [List.length_take]; omega
    unfold envelopeOf at hi ⊢
    have htl := P.hmacSHA1_length ((digestFor P KeySize x).drop KeySize.toNat)
      (rnd1.take 16 ++ ((rnd1.drop 16).take 12 ++
        P.gcmSeal ((digestFor P KeySize x).take KeySize.toNat) ((rnd1.drop 16).take 12)
          (addPadding inp) (rnd1.take 16)))
    have hfl : ∀ t : Bytes, t.length = 20 →
        (frame ephPub (rnd1.take 16)
          ((rnd1.drop 16).take 12 ++
            P.gcmSeal ((digestFor P KeySize x).take KeySize.toNat) ((rnd1.drop 16).take 12)
              (addPadding inp) (rnd1.take 16)) t).length
        = 1 + ephPub.length
            + (rnd1.take 16).length
            + ((rnd1.drop 16).take 12 ++
                P.gcmSeal ((digestFor P KeySize x).take KeySize.toNat)
                  ((rnd1.drop 16).take 12) (addPadding inp) (rnd1.take 16)).length + 20 := by
      intro t ht
      simp only [frame, List.length_cons, List.length_append, ht]
      omega
    rw [hfl _ htl] at hi
    rw [flipBit_frame_tag _ _ _ _ _ _ (by rw [hfl _ htl, htl]; omega)]
    rw [decrypt_frame P priv _ _ _ _ KeySize eph.PublicKey.X eph.PublicKey.Y x y'
      hm2 hiv (by rw [flipBit_length]; exact htl)
      hm1 (by rw [hpriv]; exact hx') (by omega)]
    apply if_pos
    intro hcontra
    exact flipBit_ne _ _ k (by rw [htl]; omega) hk hcontra.symm

/-- Witness of C4 on the executable instance: inverting bit 3 of byte 55 of
`sampleEnvelope` (inside its 20-byte tag) makes `decrypt` fail. -/
theorem decrypt_flipped_tag_bit_witness :
    decrypt toy samplePriv (flipBit sampleEnvelope 55 3) 32
      = Outcome.returned none (some "Invalid MAC") :=
  decrypt_flipped_tag_bit toy samplePub samplePriv [1, 2, 3] 32 sampleRnd sampleEnvelope 55 3
    rfl rfl
    (fun ephemeral rnd1 h => by
      obtain ⟨rfl, _⟩ := toy_generateKey_sampleRnd ephemeral rnd1 h
      decide)
    (fun ephemeral rnd1 h => by
      obtain ⟨rfl, _⟩ := toy_generateKey_sampleRnd ephemeral rnd1 h
      exact ⟨[4, 2, 1], by decide, by decide, by decide⟩)
    rfl (by decide) (by decide)

/-- C5 (malformed input shorter than 37 bytes), evaluated at the empty input:
`decrypt` does not return an error there, it panics on the index expression
`in[0]`, whatever the key, the key size and the primitives. -/
theorem decrypt_empty_input_panics (P : Primitives) (priv : PrivateKey) (KeySize : Int) :
    decrypt P priv [] KeySize = Outcome.panicked := by
  simp only [decrypt, index_nil]

/-- C6 (inconsistent declared key length), evaluated on every input whose
first byte declares more key bytes than follow it: `decrypt` does not return
an error, it panics on the slice expressions of lines 118-119. -/
theorem decrypt_declared_length_panics (P : Primitives) (priv : PrivateKey) (b0 : Byte)
    (rest : Bytes) (KeySize : Int) (h : rest.length < b0.val) :
    decrypt P priv (b0 :: rest) KeySize = Outcome.panicked := by
  have h1 : slice (b0 :: rest) 1 (1 + (b0.val : Int)) = none :=
    slice_eq_none _ _ _ (by simp; omega)
  simp only [decrypt, index_zero_cons, h1]

/-- Witness of C6: the one-byte input `[5]` declares five key bytes and has
none. -/
theorem decrypt_declared_length_panics_witness :
    decrypt toy samplePriv [5] 32 = Outcome.panicked :=
  decrypt_declared_length_panics toy samplePriv 5 [] 32 (by decide)

/-- C7 (minimum-size check).  For a non-empty input `b0 :: rest` whose declared
key length fits and that has fewer than 36 bytes after the ephemeral key,
`decrypt` returns a nil slice and the error "Invalid ciphertext", whatever the
key, the key size and the primitives. -/
theorem decrypt_short_ciphertext (P : Primitives) (priv : PrivateKey) (b0 : Byte)
    (rest : Bytes) (KeySize : Int)
    (hfit : b0.val ≤ rest.length) (hshort : rest.length - b0.val < 36) :
    decrypt P priv (b0 :: rest) KeySize
      = Outcome.returned none (some "Invalid ciphertext") := by
  obtain ⟨h1, h2⟩ := header_slices b0 rest hfit
  have hlen : ((rest.drop b0.val).length : Int) < (sha1Size : Int) + (aesBlockSize : Int) := by
    simp [sha1Size, aesBlockSize]; omega
  simp only [decrypt, index_zero_cons, h1, h2, hlen, if_true]

/-- Witness of C7: two declared key bytes followed by 35 bytes. -/
theorem decrypt_short_ciphertext_witness :
    decrypt toy samplePriv (2 :: List.replicate 37 7) 32
      = Outcome.returned none (some "Invalid ciphertext") :=
  decrypt_short_ciphertext toy samplePriv 2 (List.replicate 37 7) 32 (by decide) (by decide)

/-- C8 (no partial results).  Whenever `decrypt` returns a non-nil error its
returned slice is nil, and whenever `encrypt` returns a non-nil error its
returned envelope is nil. -/
theorem no_partial_results (P : Primitives) (priv : PrivateKey) (pub : PublicKey)
    (inp : Bytes) (KeySize : Int) (rnd : Bytes) :
    (∀ out e, decrypt P priv inp KeySize = Outcome.returned out (some e) → out = none) ∧
    (∀ out e, encrypt P pub inp KeySize rnd = Outcome.returned out (some e) → out = none) := by
  constructor
  · intro out e h
    exact decrypt_error_nil P priv inp KeySize out e h
  · intro out e h
    rcases encrypt_cases P pub inp KeySize rnd with
      h' | ⟨e', h'⟩ | ⟨_, _, _, _, _, _, _, _, _, _, h'⟩
    · rw [h'] at h; cases h
    · rw [h'] at h; cases h; rfl
    · rw [h'] at h; cases h

/-- C9 (key derivation split).  For every shared X-coordinate `x`, the bytes
hashed are the method `x.Bytes()`: the big-endian digits of the absolute value
of `x`, without a leading zero.  The digest used with key size 32 is the
48-byte SHA-384 of these bytes, and the AES256 entry points seal under its
first 32 bytes and tag under its last 16 bytes; the digest used with key size
16 is the 32-byte SHA-256, and the AES128 entry points seal under its first 16
bytes and tag under its last 16 bytes.  In both cases the encryption key
followed by the MAC key is the whole digest, and the encrypting and the
decrypting side use the same pair (whenever their library calls return). -/
theorem key_derivation_split (P : Primitives) (x : Int) :
    (bytesValue (bigIntBytes x) = x.natAbs ∧ (bigIntBytes x).head? ≠ some 0) ∧
    ((P.sum384 (bigIntBytes x)).length = 48 ∧
      ((P.sum384 (bigIntBytes x)).take 32).length = 32 ∧
      ((P.sum384 (bigIntBytes x)).drop 32).length = 16 ∧
      (P.sum384 (bigIntBytes x)).take 32 ++ (P.sum384 (bigIntBytes x)).drop 32
        = P.sum384 (bigIntBytes x) ∧
      UsesKeys P (Encrypt_ECDHE_ECDSA_AES256_GCM_HMAC_SHA1 P)
        (Decrypt_ECDHE_ECDSA_AES256_GCM_HMAC_SHA1 P) x
        ((P.sum384 (bigIntBytes x)).take 32) ((P.sum384 (bigIntBytes x)).drop 32)) ∧
    ((P.sum256 (bigIntBytes x)).length = 32 ∧
      ((P.sum256 (bigIntBytes x)).take 16).length = 16 ∧
      ((P.sum256 (bigIntBytes x)).drop 16).length = 16 ∧
      (P.sum256 (bigIntBytes x)).take 16 ++ (P.sum256 (bigIntBytes x)).drop 16
        = P.sum256 (bigIntBytes x) ∧
      UsesKeys P (Encrypt_ECDHE_ECDSA_AES128_GCM_HMAC_SHA1 P)
        (Decrypt_ECDHE_ECDSA_AES128_GCM_HMAC_SHA1 P) x
        ((P.sum256 (bigIntBytes x)).take 16) ((P.sum256 (bigIntBytes x)).drop 16)) := by
  have h384 := P.sum384_length (bigIntBytes x)
  have h256 := P.sum256_length (bigIntBytes x)
  refine ⟨⟨bigIntBytes_value x, bigIntBytes_head x⟩,
    ⟨h384, ?_, ?_, List.take_append_drop _ _, ?_⟩,
    ⟨h256, ?_, ?_, List.take_append_drop _ _, ?_⟩⟩
  · rw [List.length_take, h384]; rfl
  · rw [List.length_drop, h384]
  · exact usesKeys_of_keySize P 32 x (Or.inr rfl)
  · rw [List.length_take, h256]; rfl
  · rw [List.length_drop, h256]
  · exact usesKeys_of_keySize P 16 x (Or.inl rfl)

/-- Witness of C9 on the executable instance, where `samplePub` and the
ephemeral scalar 2 agree on `x = 6`: the AES256 entry point returns
`sampleEnvelope`, which is the frame sealed under the first 32 bytes and tagged
under the last 16 bytes of the SHA-384 stand-in of the bytes of 6; and the
bytes of 258 are `[1, 2]`. -/
theorem key_derivation_split_witness :
    bigIntBytes 258 = [1, 2] ∧
    sampleEnvelope =
      frame [4, 2, 1] (sampleRnd.tail.take 16)
        ((sampleRnd.tail.drop 16).take 12 ++
          toy.gcmSeal ((toy.sum384 (bigIntBytes 6)).take 32) ((sampleRnd.tail.drop 16).take 12)
            (addPadding [1, 2, 3]) (sampleRnd.tail.take 16))
        (toy.hmacSHA1 ((toy.sum384 (bigIntBytes 6)).drop 32)
          (sampleRnd.tail.take 16 ++ ((sampleRnd.tail.drop 16).take 12 ++
            toy.gcmSeal ((toy.sum384 (bigIntBytes 6)).take 32)
              ((sampleRnd.tail.drop 16).take 12) (addPadding [1, 2, 3])
              (sampleRnd.tail.take 16)))) ∧
    Encrypt_ECDHE_ECDSA_AES256_GCM_HMAC_SHA1 toy samplePub [1, 2, 3] sampleRnd
      = Outcome.returned (some
          (frame [4, 2, 1] (sampleRnd.tail.take 16)
            ((sampleRnd.tail.drop 16).take 12 ++
              toy.gcmSeal ((toy.sum384 (bigIntBytes 6)).take 32)
                ((sampleRnd.tail.drop 16).take 12) (addPadding [1, 2, 3])
                (sampleRnd.tail.take 16))
            (toy.hmacSHA1 ((toy.sum384 (bigIntBytes 6)).drop 32)
              (sampleRnd.tail.take 16 ++ ((sampleRnd.tail.drop 16).take 12 ++
                toy.gcmSeal ((toy.sum384 (bigIntBytes 6)).take 32)
                  ((sampleRnd.tail.drop 16).take 12) (addPadding [1, 2, 3])
                  (sampleRnd.tail.take 16)))))) none :=
  ⟨rfl, rfl,
   (key_derivation_split toy 6).2.1.2.2.2.2.1 samplePub [1, 2, 3] sampleRnd sampleRnd.tail
     [4, 2, 1] ⟨⟨Curve, 2, 1⟩, 2⟩ (some 1) rfl rfl rfl (by decide)⟩

/-- C10 (degenerate agreement), evaluated where the scalar multiplication
yields the identity, reported as the non-nil coordinates `(0, 0)`.  Neither
function returns the error "Failed to generate encryption key": `encrypt`
goes on to marshal the ephemeral key and returns the envelope keyed by the
digest of the empty byte string (the bytes of the zero coordinate), and
`decrypt` goes on to the MAC check and the AEAD open with the keys derived
from that same digest. -/
theorem identity_agreement_not_rejected (P : Primitives) (pub : PublicKey)
    (priv : PrivateKey) (inp : Bytes) (KeySize : Int) (rnd rnd1 : Bytes)
    (ephemeral : PrivateKey) (b0 : Byte) (rest : Bytes) (ex ey : Int)
    (hks : KeySize = 16 ∨ KeySize = 32)
    (hgen : P.generateKey Curve rnd = (Except.ok ephemeral, rnd1))
    (hidE : P.scalarMult pub.Curve pub.X pub.Y (bigIntBytes ephemeral.D)
      = some (some 0, some 0))
    (hr : 28 ≤ rnd1.length)
    (hfit : b0.val ≤ rest.length) (hlen : 36 ≤ rest.length - b0.val)
    (hdec : P.unmarshal Curve (rest.take b0.val) = some (ex, ey))
    (hidD : P.scalarMult priv.PublicKey.Curve ex ey (bigIntBytes priv.D)
      = some (some 0, some 0)) :
    bigIntBytes 0 = [] ∧
    encrypt P pub inp KeySize rnd =
      (match P.marshal pub.Curve ephemeral.PublicKey.X ephemeral.PublicKey.Y with
      | none => Outcome.panicked
      | some ephPub =>
        Outcome.returned (some (envelopeOf P inp KeySize ephPub 0 (rnd1.take 16)
          ((rnd1.drop 16).take 12))) none) ∧
    decrypt P priv (b0 :: rest) KeySize =
      if P.hmacSHA1 ((digestFor P KeySize 0).drop KeySize.toNat)
          ((rest.drop b0.val).take (rest.length - b0.val - 20))
          ≠ (rest.drop b0.val).drop (rest.length - b0.val - 20) then
        Outcome.returned none (some "Invalid MAC")
      else
        match DecryptGCM P (((rest.drop b0.val).take (rest.length - b0.val - 20)).drop 16)
            ((rest.drop b0.val).take 16) ((digestFor P KeySize 0).take KeySize.toNat) with
        | Outcome.panicked => Outcome.panicked
        | Outcome.returned _ (some err) => Outcome.returned none (some err)
        | Outcome.returned paddedOut none => removePadding (paddedOut.getD []) := by
  refine ⟨rfl, ?_, ?_⟩
  · exact encrypt_to_marshal P pub inp KeySize rnd rnd1 ephemeral 0 (some 0) hgen hidE hr
      (by omega)
  · exact decrypt_of_agreement P priv b0 rest KeySize ex ey 0 (some 0) hfit hlen hdec hidD
      (by omega)

/-- Witness of C10 on the executable instance: for the public key `(0, 0)` and
the private scalar zero, `encrypt` returns an envelope with a nil error and
`decrypt` returns the plaintext from it. -/
theorem identity_agreement_not_rejected_witness :
    encrypt toy identityPub [1, 2, 3] 32 sampleRnd
      = Outcome.returned (some identityEnvelope) none ∧
    decrypt toy zeroPriv identityEnvelope 32 = Outcome.returned (some [1, 2, 3]) none :=
  ⟨(identity_agreement_not_rejected toy identityPub zeroPriv [1, 2, 3] 32 sampleRnd
      sampleRnd.tail ⟨⟨Curve, 2, 1⟩, 2⟩ 3 identityEnvelope.tail 2 1 (Or.inr rfl) rfl rfl
      (by decide) (by decide) (by decide) rfl rfl).2.1,
   rfl⟩

/-- C11 (AEAD wrapper round trip).  For every data, associated `iv`, key of 16,
24 or 32 bytes and random stream holding at least the 12 nonce bytes:
`EncryptGCM` returns `nonce ++ Seal(key, nonce, data, iv)` with a nil error,
where `nonce` is the first 12 bytes of the stream, and `DecryptGCM` of that
output under the same `iv` and key returns `data` with a nil error, provided
`Open` inverts `Seal` for equal key, nonce and associated data.  The slice
returned for empty data is the nil slice, which is how `gcm.Open(nil, ...)`
hands back an empty plaintext; for non-empty data it is `data` itself. -/
theorem decryptGCM_encryptGCM (P : Primitives) (data iv key rnd : Bytes)
    (hk : key.length = 16 ∨ key.length = 24 ∨ key.length = 32)
    (hr : 12 ≤ rnd.length)
    (hgcm : ∀ nonce : Bytes, nonce.length = 12 →
      P.gcmOpen key nonce (P.gcmSeal key nonce data iv) iv = some data) :
    EncryptGCM P data iv key rnd
      = Outcome.returned (some (rnd.take 12 ++ P.gcmSeal key (rnd.take 12) data iv)) none ∧
    ∃ out : Option Bytes,
      DecryptGCM P (rnd.take 12 ++ P.gcmSeal key (rnd.take 12) data iv) iv key
        = Outcome.returned out none ∧
      out = (if data = [] then none else some data) ∧
      out.getD [] = data := by
  have hn : (rnd.take 12).length = 12 := by rw [List.length_take]; omega
  constructor
  · have r := makeRandom_ok gcmNonceSize rnd (by simpa [gcmNonceSize] using hr)
    simp only [EncryptGCM, aesNewCipher, if_pos hk, r]
    rfl
  · refine ⟨_, ?_, rfl, nilIfEmpty_getD data⟩
    rw [decryptGCM_nonce_append P key _ _ iv hk hn, hgcm _ hn]

/-- Witness of C11 on the executable instance, with a 16-byte key and the
twelve nonce bytes `1 .. 12`: the data `[7, 8, 9]` comes back as itself, the
empty data as the nil slice. -/
theorem decryptGCM_encryptGCM_witness :
    (EncryptGCM toy [7, 8, 9] [5] (List.replicate 16 1) [1, 2, 3, 4, 5, 6, 7, 8, 9, 10, 11, 12]
      = Outcome.returned (some ([1, 2, 3, 4, 5, 6, 7, 8, 9, 10, 11, 12].take 12 ++
          toy.gcmSeal (List.replicate 16 1) ([1, 2, 3, 4, 5, 6, 7, 8, 9, 10, 11, 12].take 12)
            [7, 8, 9] [5])) none ∧
    ∃ out : Option Bytes,
      DecryptGCM toy ([1, 2, 3, 4, 5, 6, 7, 8, 9, 10, 11, 12].take 12 ++
          toy.gcmSeal (List.replicate 16 1) ([1, 2, 3, 4, 5, 6, 7, 8, 9, 10, 11, 12].take 12)
            [7, 8, 9] [5]) [5] (List.replicate 16 1)
        = Outcome.returned out none ∧
      out = (if ([7, 8, 9] : Bytes) = [] then none else some [7, 8, 9]) ∧
      out.getD [] = [7, 8, 9]) ∧
    DecryptGCM toy ([1, 2, 3, 4, 5, 6, 7, 8, 9, 10, 11, 12] ++
        toy.gcmSeal (List.replicate 16 1) [1, 2, 3, 4, 5, 6, 7, 8, 9, 10, 11, 12] [] [5])
        [5] (List.replicate 16 1)
      = Outcome.returned none none :=
  ⟨decryptGCM_encryptGCM toy [7, 8, 9] [5] (List.replicate 16 1)
      [1, 2, 3, 4, 5, 6, 7, 8, 9, 10, 11, 12] (by decide) (by decide)
      (fun nonce _ => toy_gcm_open_seal _ nonce _ _),
   by decide⟩

/-- C12 (padding round trip).  For every byte string `m`, the empty one and
those of a length divisible by 16 included, `removePadding (addPadding m)`
returns exactly `m` with a nil error. -/
theorem padding_roundtrip (m : Bytes) :
    removePadding (addPadding m) = Outcome.returned (some m) none :=
  removePadding_addPadding m

/-- C13 (padding amount).  For every byte string `m`, `addPadding m` is `m`
followed by `16 - len(m) mod 16` bytes: between 1 and 16 of them, making the
total length a positive multiple of 16, and a full block of 16 when the length
of `m` is a multiple of 16. -/
theorem addPadding_amount (m : Bytes) :
    ∃ p : Bytes, addPadding m = m ++ p ∧ p.length = 16 - m.length % 16 ∧
      1 ≤ p.length ∧ p.length ≤ 16 ∧
      0 < (addPadding m).length ∧ (addPadding m).length % 16 = 0 ∧
      (addPadding m).take m.length = m ∧
      (m.length % 16 = 0 → p.length = 16) := by
  refine ⟨List.replicate (15 - m.length % 16) 0 ++ [toByte (16 - m.length % 16)],
    addPadding_eq m, ?_, ?_, ?_, ?_, ?_, ?_, ?_⟩
  · simp; omega
  · simp
  · simp
  · rw [addPadding_eq]; simp
  · rw [addPadding_eq]; simp; omega
  · rw [addPadding_eq]; simp
  · intro h; simp; omega

/-- C14, as stated, fails on the empty message: the first of the sixteen bytes
`addPadding` appends to it is 0, not 16. -/
theorem addPadding_content_counterexample :
    ¬ (∀ b ∈ (addPadding []).drop ([] : Bytes).length,
        b.val = 16 - ([] : Bytes).length % 16) := by
  intro h
  have h0 := h 0 (by simp [addPadding])
  exact absurd h0 (by decide)

/-- C14, amended (padding content).  For every byte string `m`, the
`c = 16 - len(m) mod 16` bytes `addPadding` appends are `c - 1` zero bytes
followed by one byte of value `c`. -/
theorem addPadding_content (m : Bytes) :
    (addPadding m).drop m.length
      = List.replicate (16 - m.length % 16 - 1) 0 ++ [toByte (16 - m.length % 16)] ∧
    (toByte (16 - m.length % 16)).val = 16 - m.length % 16 := by
  constructor
  · rw [addPadding_eq, List.drop_left' rfl]
    rw [show 16 - m.length % 16 - 1 = 15 - m.length % 16 by omega]
  · exact toByte_val_of_lt _ (by omega)

/-- C15 (padding rejection), evaluated on the buffers whose last byte is 0:
`removePadding` returns the buffer unchanged with a nil error instead of an
error; the only count it rejects is one greater than 16. -/
theorem removePadding_zero_count_accepted (pre : Bytes) :
    removePadding (pre ++ [0]) = Outcome.returned (some (pre ++ [0])) none ∧
    (∀ c : Byte, (∃ out e, removePadding (pre ++ [c]) = Outcome.returned out (some e))
      ↔ c.val > 16) := by
  constructor
  · rw [removePadding_snoc]
    simp
  · intro c
    rw [removePadding_snoc]
    constructor
    · rintro ⟨out, e, h⟩
      by_contra h16
      rw [if_neg h16] at h
      split at h <;> cases h
    · intro h16
      rw [if_pos h16]
      exact ⟨none, "Padding incorrect", rfl⟩

/-- C16, as stated, fails on the one-byte buffer `[5]`: its last byte is 5, it
is shorter than five bytes, and `removePadding` panics on the slice expression
instead of returning. -/
theorem removePadding_short_buffer_counterexample :
    removePadding [5] = Outcome.panicked ∧
    ¬ ∃ r, removePadding [5] = Outcome.returned (some r) none := by
  have e : removePadding [5] = Outcome.panicked := by decide
  refine ⟨e, ?_⟩
  rintro ⟨r, h⟩
  rw [e] at h
  cases h

/-- C16, amended (padding stripping).  For every non-empty buffer `pre ++ [c]`
whose last byte `c` satisfies `1 ≤ c ≤ 16` and is at most the length of the
buffer, `removePadding` returns the buffer without its last `c` bytes, of
length `len - c`, with a nil error. -/
theorem removePadding_strips (pre : Bytes) (c : Byte)
    (h1 : 1 ≤ c.val) (h16 : c.val ≤ 16) (hlen : c.val ≤ (pre ++ [c]).length) :
    removePadding (pre ++ [c])
      = Outcome.returned (some ((pre ++ [c]).take ((pre ++ [c]).length - c.val))) none ∧
    ((pre ++ [c]).take ((pre ++ [c]).length - c.val)).length = (pre ++ [c]).length - c.val ∧
    (pre ++ [c]).take ((pre ++ [c]).length - c.val)
        ++ (pre ++ [c]).drop ((pre ++ [c]).length - c.val) = pre ++ [c] ∧
    ((pre ++ [c]).drop ((pre ++ [c]).length - c.val)).length = c.val := by
  have hl : (pre ++ [c]).length = pre.length + 1 := by simp
  refine ⟨?_, ?_, List.take_append_drop _ _, ?_⟩
  · rw [removePadding_snoc, if_neg (by omega), if_neg (by omega), hl]
  · rw [List.length_take]; omega
  · rw [List.length_drop]; omega

/-- Witness of C16 (amended): a five-byte buffer ending in the count 3. -/
theorem removePadding_strips_witness :
    removePadding ([9, 8, 0, 0] ++ [3])
      = Outcome.returned (some (([9, 8, 0, 0] ++ [3]).take
          (([9, 8, 0, 0] ++ [(3 : Byte)]).length - (3 : Byte).val))) none :=
  (removePadding_strips [9, 8, 0, 0] 3 (by decide) (by decide) (by decide)).1

/-- C17 (curve choice), evaluated on the package variable: `Curve` is P-256,
not the P-384 the package documentation names, and P-256 is the curve
`encrypt` hands to the key generation and `decrypt` to the decoding of the
ephemeral public key. -/
theorem curve_is_p256_not_p384 :
    Curve = CurveId.P256 ∧ Curve ≠ CurveId.P384 ∧
    (∀ (P : Primitives) (pub : PublicKey) (inp : Bytes) (KeySize : Int) (rnd r : Bytes)
        (e : Error),
      P.generateKey CurveId.P256 rnd = (Except.error e, r) →
      encrypt P pub inp KeySize rnd = Outcome.returned none (some e)) ∧
    (∀ (P : Primitives) (priv : PrivateKey) (b0 : Byte) (rest : Bytes) (KeySize : Int),
      b0.val ≤ rest.length → 36 ≤ rest.length - b0.val →
      P.unmarshal CurveId.P256 (rest.take b0.val) = none →
      decrypt P priv (b0 :: rest) KeySize
        = Outcome.returned none (some "Invalid public key")) := by
  refine ⟨rfl, by decide, ?_, ?_⟩
  · intro P pub inp KeySize rnd r e h
    have h' : P.generateKey Curve rnd = (Except.error e, r) := h
    simp only [encrypt, h']
  · intro P priv b0 rest KeySize hfit hlen h
    have h' : P.unmarshal Curve (rest.take b0.val) = none := h
    obtain ⟨h1, h2⟩ := header_slices b0 rest hfit
    have hlen2 : ¬ (((rest.drop b0.val).length : Int) < (sha1Size : Int) + (aesBlockSize : Int)) := by
      simp [sha1Size, aesBlockSize]; omega
    simp only [decrypt, index_zero_cons, h1, h2, hlen2, if_false, h']

/-- C19 (framing parse inverts framing build).  For an ephemeral key encoding
of at most 255 bytes, a 16-byte `iv`, any AEAD ciphertext `c` and a 20-byte tag
`t`, the index and slice expressions of `decrypt` applied to the envelope
`[byte(len(ephPub))] ++ ephPub ++ iv ++ c ++ t` give back `ephPub`, the rest
`ct = iv ++ c ++ t`, then `iv`, `c` and `t`, and the MAC input `ct[:tagStart]`
is `iv ++ c`.  These are the parts `decrypt` works with: for all primitives,
keys and key sizes up to 32, `decrypt` of the envelope is exactly the
computation that decodes `ephPub`, agrees on `x`, compares `t` with the HMAC of
`iv ++ c` under the MAC key, and hands `c`, `iv` and the encryption key to
`DecryptGCM`.  And `iv ++ c` is the byte string `encrypt` fed to the MAC: every
envelope `encrypt` returns is such a frame of its marshalled ephemeral key, its
outer IV and its AEAD output, with the HMAC of `iv ++ c` as the tag. -/
theorem framing_parse_inverts_build (ephPub iv c t : Bytes)
    (hpub : ephPub.length ≤ 255) (hiv : iv.length = 16) (ht : t.length = 20) :
    index (frame ephPub iv c t) 0 = some (toByte ephPub.length) ∧
    ((toByte ephPub.length).val : Int) = ephPub.length ∧
    slice (frame ephPub iv c t) 1 (1 + (ephPub.length : Int)) = some ephPub ∧
    slice (frame ephPub iv c t) (1 + (ephPub.length : Int)) (frame ephPub iv c t).length
      = some (iv ++ c ++ t) ∧
    ¬ (((iv ++ c ++ t).length : Int) < (sha1Size : Int) + (aesBlockSize : Int)) ∧
    slice (iv ++ c ++ t) 0 aesBlockSize = some iv ∧
    slice (iv ++ c ++ t) aesBlockSize (((iv ++ c ++ t).length : Int) - (sha1Size : Int))
      = some c ∧
    slice (iv ++ c ++ t) (((iv ++ c ++ t).length : Int) - (sha1Size : Int))
      (iv ++ c ++ t).length = some t ∧
    slice (iv ++ c ++ t) 0 (((iv ++ c ++ t).length : Int) - (sha1Size : Int))
      = some (iv ++ c) ∧
    (∀ (P : Primitives) (priv : PrivateKey) (KeySize : Int), 0 ≤ KeySize ∧ KeySize ≤ 32 →
      decrypt P priv (frame ephPub iv c t) KeySize =
        match P.unmarshal Curve ephPub with
        | none => Outcome.returned none (some "Invalid public key")
        | some (ex, ey) =>
          match P.scalarMult priv.PublicKey.Curve ex ey (bigIntBytes priv.D) with
          | none => Outcome.panicked
          | some (none, _) => Outcome.returned none (some "Failed to generate encryption key")
          | some (some x, _) =>
            if P.hmacSHA1 ((digestFor P KeySize x).drop KeySize.toNat) (iv ++ c) ≠ t then
              Outcome.returned none (some "Invalid MAC")
            else
              match DecryptGCM P c iv ((digestFor P KeySize x).take KeySize.toNat) with
              | Outcome.panicked => Outcome.panicked
              | Outcome.returned _ (some err) => Outcome.returned none (some err)
              | Outcome.returned paddedOut none => removePadding (paddedOut.getD [])) ∧
    (∀ (P : Primitives) (pub : PublicKey) (inp : Bytes) (KeySize : Int) (rnd E : Bytes),
      encrypt P pub inp KeySize rnd = Outcome.returned (some E) none →
      ∃ ephemeral rnd1 x y ephPub1 iv1 c1,
        P.generateKey Curve rnd = (Except.ok ephemeral, rnd1) ∧
        P.scalarMult pub.Curve pub.X pub.Y (bigIntBytes ephemeral.D) = some (some x, y) ∧
        P.marshal pub.Curve ephemeral.PublicKey.X ephemeral.PublicKey.Y = some ephPub1 ∧
        iv1 = rnd1.take 16 ∧ iv1.length = 16 ∧
        c1 = (rnd1.drop 16).take 12 ++
          P.gcmSeal ((digestFor P KeySize x).take KeySize.toNat) ((rnd1.drop 16).take 12)
            (addPadding inp) iv1 ∧
        E = frame ephPub1 iv1 c1
          (P.hmacSHA1 ((digestFor P KeySize x).drop KeySize.toNat) (iv1 ++ c1))) := by
  have hb : (toByte ephPub.length).val = ephPub.length := toByte_val_of_lt _ (by omega)
  have hfit : (toByte ephPub.length).val ≤ (ephPub ++ iv ++ c ++ t).length := by
    rw [hb]; simp
  obtain ⟨h1, h2⟩ := header_slices (toByte ephPub.length) (ephPub ++ iv ++ c ++ t) hfit
  rw [hb] at h1 h2
  have htk : (ephPub ++ iv ++ c ++ t).take ephPub.length = ephPub := by
    simp [List.append_assoc]
  have hdr : (ephPub ++ iv ++ c ++ t).drop ephPub.length = iv ++ c ++ t := by
    simp [List.append_assoc]
  rw [htk] at h1
  rw [hdr] at h2
  have hct : 36 ≤ (iv ++ c ++ t).length := by simp [hiv, ht]; omega
  obtain ⟨c1, c2, c3, c4⟩ := ct_slices (iv ++ c ++ t) hct
  have hl : (iv ++ c ++ t).length - 20 = (iv ++ c).length := by simp [ht]; omega
  rw [hl] at c1 c2 c3
  rw [List.take_left' rfl] at c1 c3
  rw [List.drop_left' rfl] at c2
  rw [List.drop_left' hiv] at c3
  rw [List.append_assoc, List.take_left' hiv, ← List.append_assoc] at c4
  refine ⟨index_zero_cons _ _, by rw [hb], h1, h2, ?_, c4, c3, c2, c1, ?_, ?_⟩
  · simp [sha1Size, aesBlockSize, hiv, ht]; omega
  · intro P priv KeySize hks
    exact decrypt_frame_cases P priv ephPub iv c t KeySize hpub hiv ht hks
  · intro P pub inp KeySize rnd E hE
    rcases encrypt_cases P pub inp KeySize rnd with
      h | ⟨e, h⟩ | ⟨eph, rnd1, x, y, ephPub1, hgen, hx, hmar, hr, _, h⟩
    · rw [h] at hE; cases hE
    · rw [h] at hE; cases hE
    · rw [h] at hE
      cases hE
      refine ⟨eph, rnd1, x, y, ephPub1, _, _, hgen, hx, hmar, rfl, ?_, rfl, rfl⟩
      rw [List.length_take]; omega

/-- Witness of C19 on the executable instance: the parts of `sampleEnvelope`
(a three-byte key encoding, the IV `10 .. 25`, the AEAD output and the tag);
the slice `in[1:1+ephLen]` of their frame is the key encoding, the frame is
`sampleEnvelope`, and `decrypt` of it, computed from the parts, returns the
plaintext. -/
theorem framing_parse_inverts_build_witness :
    slice (frame [4, 2, 1] (sampleRnd.tail.take 16) ((sampleEnvelope.drop 20).take 29)
        (sampleEnvelope.drop 49)) 1 (1 + (([4, 2, 1] : Bytes).length : Int))
      = some [4, 2, 1] ∧
    frame [4, 2, 1] (sampleRnd.tail.take 16) ((sampleEnvelope.drop 20).take 29)
        (sampleEnvelope.drop 49) = sampleEnvelope ∧
    decrypt toy samplePriv (frame [4, 2, 1] (sampleRnd.tail.take 16)
        ((sampleEnvelope.drop 20).take 29) (sampleEnvelope.drop 49)) 32
      = Outcome.returned (some [1, 2, 3]) none :=
  ⟨(framing_parse_inverts_build [4, 2, 1] (sampleRnd.tail.take 16)
      ((sampleEnvelope.drop 20).take 29) (sampleEnvelope.drop 49)
      (by decide) (by decide) (by decide)).2.2.1,
   rfl,
   ((framing_parse_inverts_build [4, 2, 1] (sampleRnd.tail.take 16)
      ((sampleEnvelope.drop 20).take 29) (sampleEnvelope.drop 49)
      (by decide) (by decide) (by decide)).2.2.2.2.2.2.2.2.2.1 toy samplePriv 32
      (by decide)).trans rfl⟩

/-- C20 (totality of `decrypt` on well-framed envelopes), evaluated on
well-framed envelopes with a decodable key, a non-nil agreement and a valid
MAC tag: `decrypt` panics instead of returning when the AEAD-ciphertext region
is shorter than the 12-byte nonce, and when the AEAD open yields an empty
payload or a payload whose last byte (at most 16) exceeds its length. -/
theorem decrypt_panics_after_valid_mac (P : Primitives) (priv : PrivateKey) (b0 : Byte)
    (rest : Bytes) (KeySize ex ey x : Int) (y : Option Int)
    (hfit : b0.val ≤ rest.length) (hlen : 36 ≤ rest.length - b0.val)
    (hdec : P.unmarshal Curve (rest.take b0.val) = some (ex, ey))
    (hx : P.scalarMult priv.PublicKey.Curve ex ey (bigIntBytes priv.D) = some (some x, y))
    (hks : KeySize = 16 ∨ KeySize = 32)
    (hmac : P.hmacSHA1 ((digestFor P KeySize x).drop KeySize.toNat)
        ((rest.drop b0.val).take (rest.length - b0.val - 20))
      = (rest.drop b0.val).drop (rest.length - b0.val - 20)) :
    (rest.length - b0.val < 48 → decrypt P priv (b0 :: rest) KeySize = Outcome.panicked) ∧
    (∀ plain : Bytes, 48 ≤ rest.length - b0.val →
      P.gcmOpen ((digestFor P KeySize x).take KeySize.toNat)
        ((((rest.drop b0.val).take (rest.length - b0.val - 20)).drop 16).take 12)
        ((((rest.drop b0.val).take (rest.length - b0.val - 20)).drop 16).drop 12)
        ((rest.drop b0.val).take 16) = some plain →
      (plain = [] ∨ ∃ pre c, plain = pre ++ [c] ∧ c.val ≤ 16 ∧ pre.length + 1 < c.val) →
      decrypt P priv (b0 :: rest) KeySize = Outcome.panicked) := by
  have hk := encKey_length P KeySize x hks
  have hk' : ((digestFor P KeySize x).take KeySize.toNat).length = 16 ∨
      ((digestFor P KeySize x).take KeySize.toNat).length = 24 ∨
      ((digestFor P KeySize x).take KeySize.toNat).length = 32 := by omega
  have hd : (((rest.drop b0.val).take (rest.length - b0.val - 20)).drop 16).length
      = rest.length - b0.val - 36 := by
    simp only [List.length_drop, List.length_take]; omega
  have hne : ¬ (P.hmacSHA1 ((digestFor P KeySize x).drop KeySize.toNat)
        ((rest.drop b0.val).take (rest.length - b0.val - 20))
      ≠ (rest.drop b0.val).drop (rest.length - b0.val - 20)) := fun h => h hmac
  constructor
  · intro hshort
    rw [decrypt_of_agreement P priv b0 rest KeySize ex ey x y hfit hlen hdec hx (by omega),
      if_neg hne, decryptGCM_short P _ _ _ hk' (by rw [hd]; omega)]
  · intro plain hlong hopen hbad
    rw [decrypt_of_agreement P priv b0 rest KeySize ex ey x y hfit hlen hdec hx (by omega),
      if_neg hne, decryptGCM_split P _ _ _ hk' (by rw [hd]; omega), hopen]
    simp only [nilIfEmpty_getD]
    rcases hbad with rfl | ⟨pre, c, rfl, h16, hsh⟩
    · exact removePadding_nil
    · rw [removePadding_snoc, if_neg (by omega), if_pos hsh]

/-- Witness of C20 on the executable instance: `decrypt` panics on
`sampleNoAead` (no room for the nonce) and on `sampleEmptyPayload` (the opened
payload is empty). -/
theorem decrypt_panics_after_valid_mac_witness :
    decrypt toy samplePriv sampleNoAead 32 = Outcome.panicked ∧
    decrypt toy samplePriv sampleEmptyPayload 32 = Outcome.panicked :=
  ⟨(decrypt_panics_after_valid_mac toy samplePriv 3 sampleNoAead.tail 32 2 1 6 (some 1)
      (by decide) (by decide) rfl rfl (Or.inr rfl) rfl).1 (by decide),
   (decrypt_panics_after_valid_mac toy samplePriv 3 sampleEmptyPayload.tail 32 2 1 6 (some 1)
      (by decide) (by decide) rfl rfl (Or.inr rfl) rfl).2 [] (by decide) rfl (Or.inl rfl)⟩

end ECDH

namespace Number

/-! ## Auxiliary facts on `Number` -/

theorem wrap64_of_range (x : Int)
    (h : -9223372036854775808 ≤ x ∧ x < 9223372036854775808) : wrap64 x = x := by
  unfold wrap64; omega

theorem wrap64_neg_of_overflow (d : Int)
    (h : 9223372036854775808 ≤ d ∧ d < 18446744073709551616) : wrap64 d < 0 := by
  unfold wrap64; omega

theorem generateInt_ordered (lo hi : Int) (crypto : Option Nat) (pseudo : Nat)
    (hlo : -9223372036854775808 ≤ lo) (hhi : hi < 9223372036854775808) (hlt : lo < hi) :
    (hi - lo < 9223372036854775808 →
      ∃ r, (match randInt crypto (wrap64 (hi - lo)) with
          | none => none
          | some none =>
            match mathIntn pseudo (wrap64 (hi - lo)) with
            | none => none
            | some r => some (wrap64 (r + lo))
          | some (some n) => some (wrap64 (n + lo))) = some r ∧ lo ≤ r ∧ r < hi) ∧
    (9223372036854775808 ≤ hi - lo →
      (match randInt crypto (wrap64 (hi - lo)) with
        | none => none
        | some none =>
          match mathIntn pseudo (wrap64 (hi - lo)) with
          | none => none
          | some r => some (wrap64 (r + lo))
        | some (some n) => some (wrap64 (n + lo))) = none) := by
  constructor
  · intro hd
    have hw : wrap64 (hi - lo) = hi - lo := wrap64_of_range _ (by omega)
    have hpos : ¬ (hi - lo ≤ 0) := by omega
    rw [hw]
    cases crypto with
    | none =>
      have h1 := Int.emod_nonneg (pseudo : Int) (show hi - lo ≠ 0 by omega)
      have h2 := Int.emod_lt_of_pos (pseudo : Int) (show 0 < hi - lo by omega)
      refine ⟨(pseudo : Int) % (hi - lo) + lo, ?_, by omega, by omega⟩
      simp only [randInt, mathIntn, if_neg hpos]
      rw [wrap64_of_range _ (by omega)]
    | some v =>
      have h1 := Int.emod_nonneg (v : Int) (show hi - lo ≠ 0 by omega)
      have h2 := Int.emod_lt_of_pos (v : Int) (show 0 < hi - lo by omega)
      refine ⟨(v : Int) % (hi - lo) + lo, ?_, by omega, by omega⟩
      simp only [randInt, if_neg hpos]
      rw [wrap64_of_range _ (by omega)]
  · intro hd
    have hneg := wrap64_neg_of_overflow (hi - lo) (by omega)
    have hle : wrap64 (hi - lo) ≤ 0 := by omega
    simp only [randInt, if_pos hle]

/-! ## The claims on `Number` -/

/-- C18 (random integer in range), evaluated over all pairs of 64-bit ints.
Equal arguments are returned as they are, and when the difference of the
larger and the smaller argument fits in an int the result lies in
`[min, max)` for every outcome of the random sources; but when the difference
is `2^63` or more, `high - low` wraps to a negative number and the function
panics inside `rand.Int` instead of returning a value. -/
theorem GenerateInt_range_or_panic (low high : Int) (crypto : Option Nat) (pseudo : Nat)
    (hl : -9223372036854775808 ≤ low ∧ low < 9223372036854775808)
    (hh : -9223372036854775808 ≤ high ∧ high < 9223372036854775808) :
    (low = high → GenerateInt low high crypto pseudo = some high) ∧
    (low ≠ high → max low high - min low high < 9223372036854775808 →
      ∃ r, GenerateInt low high crypto pseudo = some r ∧
        min low high ≤ r ∧ r < max low high) ∧
    (9223372036854775808 ≤ max low high - min low high →
      GenerateInt low high crypto pseudo = none) := by
  refine ⟨fun h => by simp only [GenerateInt, if_pos h], ?_, ?_⟩
  · intro hne hd
    by_cases hgt : low > high
    · have e1 : max low high = low := by omega
      have e2 : min low high = high := by omega
      rw [e1, e2] at hd ⊢
      simp only [GenerateInt, if_neg hne, if_pos hgt]
      exact (generateInt_ordered high low crypto pseudo hh.1 hl.2 hgt).1 hd
    · have e1 : max low high = high := by omega
      have e2 : min low high = low := by omega
      rw [e1, e2] at hd ⊢
      simp only [GenerateInt, if_neg hne, if_neg hgt]
      exact (generateInt_ordered low high crypto pseudo hl.1 hh.2 (by omega)).1 hd
  · intro hd
    have hne : low ≠ high := by omega
    by_cases hgt : low > high
    · have e1 : max low high = low := by omega
      have e2 : min low high = high := by omega
      rw [e1, e2] at hd
      simp only [GenerateInt, if_neg hne, if_pos hgt]
      exact (generateInt_ordered high low crypto pseudo hh.1 hl.2 hgt).2 hd
    · have e1 : max low high = high := by omega
      have e2 : min low high = low := by omega
      rw [e1, e2] at hd
      simp only [GenerateInt, if_neg hne, if_neg hgt]
      exact (generateInt_ordered low high crypto pseudo hl.1 hh.2 (by omega)).2 hd

/-- Witness of C18: the smallest and the largest 64-bit int; their difference
`2^64 - 1` wraps to `-1` and `GenerateInt` panics. -/
theorem GenerateInt_range_or_panic_witness :
    GenerateInt (-9223372036854775808) 9223372036854775807 (some 5) 7 = none :=
  (GenerateInt_range_or_panic (-9223372036854775808) 9223372036854775807 (some 5) 7
    (by decide) (by decide)).2.2 (by decide)

/-! ## Auxiliary facts on the byte encodings -/

theorem lowByte_val (x : Nat) : (ECDH.toByte (x &&& 255)).val = x % 256 := by
  have h : x &&& 255 = x % 256 := Nat.and_pow_two_sub_one_eq_mod x 8
  rw [h]
  simp [ECDH.toByte]

theorem shr8_eq (x : Nat) : x >>> 8 = x / 256 := Nat.shiftRight_eq_div_pow x 8

theorem ldiff_255 (m : Nat) : Nat.ldiff 255 m = 255 - m % 256 := by
  apply Nat.eq_of_testBit_eq
  intro i
  have h1 : 255 - m % 256 = 2 ^ 8 - (m % 2 ^ 8 + 1) := by omega
  rw [Nat.testBit_ldiff, h1, Nat.testBit_two_pow_sub_succ (Nat.mod_lt _ (by decide)),
    Nat.testBit_mod_two_pow]
  have h2 : (255 : Nat) = 2 ^ 8 - 1 := by decide
  rw [h2, Nat.testBit_two_pow_sub_one]
  cases decide (i < 8) <;> cases m.testBit i <;> rfl

theorem land_255 (x : Int) : Int.land x 255 = x % 256 := by
  cases x with
  | ofNat m =>
    have h : m &&& 255 = m % 256 := Nat.and_pow_two_sub_one_eq_mod m 8
    show ((m &&& 255 : Nat) : Int) = (m : Int) % 256
    rw [h]; omega
  | negSucc m =>
    show ((Nat.ldiff 255 m : Nat) : Int) = Int.negSucc m % 256
    rw [ldiff_255, Int.negSucc_eq]; omega

theorem lowByteSigned_val (x : Int) : (byteOfInt (Int.land x 255)).val = (x % 256).toNat := by
  rw [land_255]
  simp only [byteOfInt, ECDH.toByte]
  omega

theorem sar8_eq (x : Int) : x >>> (8 : Nat) = x / 256 := Int.shiftRight_eq_div_pow x 8

theorem signed_byte_eq (x : Int) (y : Nat) (h : (x % 256).toNat = y % 256) :
    byteOfInt (Int.land x 255) = ECDH.toByte (y &&& 255) :=
  Fin.ext (by rw [lowByteSigned_val, lowByte_val, h])

theorem uint64ToBytes_eq (n : Nat) :
    Uint64ToBytes n = [ECDH.toByte (n &&& 255), ECDH.toByte (n >>> 8 &&& 255),
      ECDH.toByte (n >>> 8 >>> 8 &&& 255), ECDH.toByte (n >>> 8 >>> 8 >>> 8 &&& 255),
      ECDH.toByte (n >>> 8 >>> 8 >>> 8 >>> 8 &&& 255),
      ECDH.toByte (n >>> 8 >>> 8 >>> 8 >>> 8 >>> 8 &&& 255),
      ECDH.toByte (n >>> 8 >>> 8 >>> 8 >>> 8 >>> 8 >>> 8 &&& 255),
      ECDH.toByte (n >>> 8 >>> 8 >>> 8 >>> 8 >>> 8 >>> 8 >>> 8 &&& 255)] := rfl

theorem uint32ToBytes_eq (n : Nat) :
    Uint32ToBytes n = [ECDH.toByte (n &&& 255), ECDH.toByte (n >>> 8 &&& 255),
      ECDH.toByte (n >>> 8 >>> 8 &&& 255), ECDH.toByte (n >>> 8 >>> 8 >>> 8 &&& 255)] := rfl

theorem uint16ToBytes_eq (n : Nat) :
    Uint16ToBytes n = [ECDH.toByte (n &&& 255), ECDH.toByte (n >>> 8 &&& 255)] := rfl

theorem int64ToBytes_eq (v : Int) :
    Int64ToBytes v = [byteOfInt (Int.land v 255),
      byteOfInt (Int.land (v >>> (8 : Nat)) 255),
      byteOfInt (Int.land (v >>> (8 : Nat) >>> (8 : Nat)) 255),
      byteOfInt (Int.land (v >>> (8 : Nat) >>> (8 : Nat) >>> (8 : Nat)) 255),
      byteOfInt (Int.land (v >>> (8 : Nat) >>> (8 : Nat) >>> (8 : Nat) >>> (8 : Nat)) 255),
      byteOfInt (Int.land
        (v >>> (8 : Nat) >>> (8 : Nat) >>> (8 : Nat) >>> (8 : Nat) >>> (8 : Nat)) 255),
      byteOfInt (Int.land
        (v >>> (8 : Nat) >>> (8 : Nat) >>> (8 : Nat) >>> (8 : Nat) >>> (8 : Nat)
          >>> (8 : Nat)) 255),
      byteOfInt (Int.land
        (v >>> (8 : Nat) >>> (8 : Nat) >>> (8 : Nat) >>> (8 : Nat) >>> (8 : Nat)
          >>> (8 : Nat) >>> (8 : Nat)) 255)] := rfl

theorem int32ToBytes_eq (v : Int) :
    Int32ToBytes v = [byteOfInt (Int.land v 255),
      byteOfInt (Int.land (v >>> (8 : Nat)) 255),
      byteOfInt (Int.land (v >>> (8 : Nat) >>> (8 : Nat)) 255),
      byteOfInt (Int.land (v >>> (8 : Nat) >>> (8 : Nat) >>> (8 : Nat)) 255)] := rfl

theorem int16ToBytes_eq (v : Int) :
    Int16ToBytes v = [byteOfInt (Int.land v 255),
      byteOfInt (Int.land (v >>> (8 : Nat)) 255)] := rfl

theorem uint64_value (n : Nat) (h : n < 2 ^ 64) : leValue (Uint64ToBytes n) = n := by
  rw [uint64ToBytes_eq]
  simp [leValue, List.range_succ, lowByte_val, shr8_eq]
  omega

theorem uint32_value (n : Nat) (h : n < 2 ^ 32) : leValue (Uint32ToBytes n) = n := by
  rw [uint32ToBytes_eq]
  simp [leValue, List.range_succ, lowByte_val, shr8_eq]
  omega

theorem uint16_value (n : Nat) (h : n < 2 ^ 16) : leValue (Uint16ToBytes n) = n := by
  rw [uint16ToBytes_eq]
  simp [leValue, List.range_succ, lowByte_val, shr8_eq]
  omega

theorem int64_eq_uint64 (v : Int) : Int64ToBytes v = Uint64ToBytes (toUnsigned 64 v) := by
  rw [int64ToBytes_eq, uint64ToBytes_eq]
  simp only [sar8_eq, shr8_eq, toUnsigned, List.cons.injEq, and_true]
  refine ⟨?_, ?_, ?_, ?_, ?_, ?_, ?_, ?_⟩ <;> (apply signed_byte_eq; omega)

theorem int32_eq_uint32 (v : Int) : Int32ToBytes v = Uint32ToBytes (toUnsigned 32 v) := by
  rw [int32ToBytes_eq, uint32ToBytes_eq]
  simp only [sar8_eq, shr8_eq, toUnsigned, List.cons.injEq, and_true]
  refine ⟨?_, ?_, ?_, ?_⟩ <;> (apply signed_byte_eq; omega)

theorem int16_eq_uint16 (v : Int) : Int16ToBytes v = Uint16ToBytes (toUnsigned 16 v) := by
  rw [int16ToBytes_eq, uint16ToBytes_eq]
  simp only [sar8_eq, shr8_eq, toUnsigned, List.cons.injEq, and_true]
  refine ⟨?_, ?_⟩ <;> (apply signed_byte_eq; omega)

/-- C21 (little-endian integer encoding).  For every `uint64` value `n`,
`Uint64ToBytes n` is 8 bytes whose little-endian value `Σ b[i] * 256 ^ i` is
`n`, hence the encoding is injective; likewise `Uint32ToBytes` with 4 bytes
and `Uint16ToBytes` with 2 bytes.  Each signed variant returns the bytes of the
unsigned variant at the two's-complement reinterpretation of its argument
(`v` itself when `v ≥ 0`, `v + 2 ^ w` when `v < 0`). -/
theorem little_endian_encoding :
    (∀ n : Nat, n < 2 ^ 64 →
      (Uint64ToBytes n).length = 8 ∧ leValue (Uint64ToBytes n) = n) ∧
    (∀ m n : Nat, m < 2 ^ 64 → n < 2 ^ 64 → Uint64ToBytes m = Uint64ToBytes n → m = n) ∧
    (∀ n : Nat, n < 2 ^ 32 →
      (Uint32ToBytes n).length = 4 ∧ leValue (Uint32ToBytes n) = n) ∧
    (∀ m n : Nat, m < 2 ^ 32 → n < 2 ^ 32 → Uint32ToBytes m = Uint32ToBytes n → m = n) ∧
    (∀ n : Nat, n < 2 ^ 16 →
      (Uint16ToBytes n).length = 2 ∧ leValue (Uint16ToBytes n) = n) ∧
    (∀ m n : Nat, m < 2 ^ 16 → n < 2 ^ 16 → Uint16ToBytes m = Uint16ToBytes n → m = n) ∧
    (∀ v : Int, -2 ^ 63 ≤ v → v < 2 ^ 63 →
      Int64ToBytes v = Uint64ToBytes (toUnsigned 64 v) ∧ toUnsigned 64 v < 2 ^ 64 ∧
      (toUnsigned 64 v : Int) = if 0 ≤ v then v else v + 2 ^ 64) ∧
    (∀ v : Int, -2 ^ 31 ≤ v → v < 2 ^ 31 →
      Int32ToBytes v = Uint32ToBytes (toUnsigned 32 v) ∧ toUnsigned 32 v < 2 ^ 32 ∧
      (toUnsigned 32 v : Int) = if 0 ≤ v then v else v + 2 ^ 32) ∧
    (∀ v : Int, -2 ^ 15 ≤ v → v < 2 ^ 15 →
      Int16ToBytes v = Uint16ToBytes (toUnsigned 16 v) ∧ toUnsigned 16 v < 2 ^ 16 ∧
      (toUnsigned 16 v : Int) = if 0 ≤ v then v else v + 2 ^ 16) := by
  refine ⟨fun n h => ⟨rfl, uint64_value n h⟩, ?_, fun n h => ⟨rfl, uint32_value n h⟩, ?_,
    fun n h => ⟨rfl, uint16_value n h⟩, ?_, ?_, ?_, ?_⟩
  · intro m n hm hn h
    rw [← uint64_value m hm, ← uint64_value n hn, h]
  · intro m n hm hn h
    rw [← uint32_value m hm, ← uint32_value n hn, h]
  · intro m n hm hn h
    rw [← uint16_value m hm, ← uint16_value n hn, h]
  · intro v h1 h2
    refine ⟨int64_eq_uint64 v, ?_, ?_⟩
    · unfold toUnsigned; omega
    · unfold toUnsigned; split <;> omega
  · intro v h1 h2
    refine ⟨int32_eq_uint32 v, ?_, ?_⟩
    · unfold toUnsigned; omega
    · unfold toUnsigned; split <;> omega
  · intro v h1 h2
    refine ⟨int16_eq_uint16 v, ?_, ?_⟩
    · unfold toUnsigned; omega
    · unfold toUnsigned; split <;> omega

/-- Witness of C21: the encodings of 258 and of -2. -/
theorem little_endian_encoding_witness :
    Uint64ToBytes 258 = [2, 1, 0, 0, 0, 0, 0, 0] ∧
    leValue (Uint64ToBytes 258) = 258 ∧
    Int64ToBytes (-2) = Uint64ToBytes 18446744073709551614 ∧
    Uint64ToBytes 18446744073709551614 = [254, 255, 255, 255, 255, 255, 255, 255] := by
  have e : toUnsigned 64 (-2) = 18446744073709551614 := by decide
  have h := (little_endian_encoding.2.2.2.2.2.2.1 (-2) (by decide) (by decide)).1
  rw [e] at h
  exact ⟨by decide, (little_endian_encoding.1 258 (by decide)).2, h, by decide⟩

end Number
